import Mathlib

/-!
Verification of the quiz-generation pipeline (scripts/quiz) against its
natural-language specification.

The development shallowly embeds the Python sources:
* `scripts/quiz/utils.py` — `_parse_model_questions` (extraction of JSON from
  noisy model output, option cleanup, answer reconciliation);
* `scripts/quiz/quiz_core.py` — `Quiz.validate` and the per-question
  generation loop of `Quiz.run`;
* `scripts/quiz/providers.py` — the parse-retry loop of
  `Providers.ollama_questions` (theme rotation, retry nonce);
* `scripts/quiz/llm_client.py` — the transport retry loop of
  `LLMClient.run_ollama`;
* `scripts/quiz/rag.py` — `RAG._fetch_unique_tags`;
* `scripts/quiz/validate_quiz_answers.py` — the relational insert of
  `auto_validate`.

Strings are modelled as `List Char`; machine-level details (network,
filesystem, sqlite, randomness) enter as explicit parameters: the
post-shuffle row order of sqlite results, the per-attempt LLM responses,
and the per-attempt fresh nonces are inputs to the embedded functions.
-/

namespace QuizVerif

/-- Strings of the embedded program, as explicit character lists. -/
abbrev Str := List Char

/-- Coerce a Lean string literal to the embedded string type. -/
def cs (s : String) : Str := s.toList

/-- Python's `\s` / `str.strip` whitespace class (ASCII range, which is the
only range the pipeline's inputs use). -/
def isPySpace (c : Char) : Bool :=
  c == ' ' || c == '\t' || c == '\n' || c == '\r' || c == '\x0b' || c == '\x0c'

/-- Python `str.strip()`: drop whitespace from both ends. -/
def stripL (s : Str) : Str :=
  ((s.dropWhile isPySpace).reverse.dropWhile isPySpace).reverse

/-- ASCII lower-casing, modelling Python `str.lower()` on the ASCII inputs
the pipeline handles. -/
def asciiLower (c : Char) : Char :=
  if 'A' ≤ c ∧ c ≤ 'Z' then Char.ofNat (c.toNat + 32) else c

/-- ASCII upper-casing, modelling Python `str.upper()` likewise. -/
def asciiUpper (c : Char) : Char :=
  if 'a' ≤ c ∧ c ≤ 'z' then Char.ofNat (c.toNat - 32) else c

/-- Python `str.lower()`. -/
def lowerL (s : Str) : Str := s.map asciiLower

/-- Python `str.upper()`. -/
def upperL (s : Str) : Str := s.map asciiUpper

/-- `big.startswith(small)` for embedded strings. -/
def startsWithL : Str → Str → Bool
  | _, [] => true
  | [], _ :: _ => false
  | c :: rest, d :: drest => c == d && startsWithL rest drest

/-- Decimal digits of a natural number (helper for `natStr`). -/
def natStrGo (fuel n : Nat) (acc : Str) : Str :=
  match fuel with
  | 0 => acc
  | f + 1 =>
    if n < 10 then Char.ofNat ('0'.toNat + n) :: acc
    else natStrGo f (n / 10) (Char.ofNat ('0'.toNat + n % 10) :: acc)

/-- Decimal rendering of a natural number (Python `str(int)` for `n ≥ 0`). -/
def natStr (n : Nat) : Str := natStrGo (n + 1) n []

/-- Python `str(int)`, including the sign. -/
def intStr (n : Int) : Str :=
  if n < 0 then '-' :: natStr n.natAbs else natStr n.natAbs

/-- JSON values as decoded by `json.loads`. -/
inductive JValue where
  | jnull
  | jbool (b : Bool)
  | jnum (n : Int)
  | jstr (s : Str)
  | jarr (xs : List JValue)
  | jobj (fields : List (Str × JValue))

/-- Python truthiness of a decoded JSON value (`if value:`). -/
def jTruthy : JValue → Bool
  | .jnull => false
  | .jbool b => b
  | .jnum n => n != 0
  | .jstr s => !s.isEmpty
  | .jarr xs => !xs.isEmpty
  | .jobj fs => !fs.isEmpty

/-- Python `str()` of a decoded JSON value, as the parser applies it to the
`id` and `answer` fields. Scalar renderings follow CPython exactly. A
container value (list/dict) would render as its Python repr; no behavior
established below depends on that rendering, so containers map to a fixed
marker here. -/
def pyStr : JValue → Str
  | .jstr s => s
  | .jnum n => intStr n
  | .jbool true => cs ("True")
  | .jbool false => cs ("False")
  | .jnull => cs ("None")
  | .jarr _ => cs ("<container>")
  | .jobj _ => cs ("<container>")

/-- `dict.get` on a decoded JSON object. `json.loads` lets a later duplicate
key overwrite an earlier one, so lookup takes the last matching entry. -/
def objGet (fs : List (Str × JValue)) (k : Str) : Option JValue :=
  match fs with
  | [] => none
  | (k', v) :: rest =>
    match objGet rest k with
    | some v' => some v'
    | none => if k' == k then some v else none

example : stripL (cs ("  a b\n")) = cs ("a b") := rfl
example : lowerL (cs ("AbC)")) = cs ("abc)") := rfl
example : upperL (cs ("c")) = cs ("C") := rfl
example : natStr 30 = cs ("30") := rfl
example : startsWithL (cs ("paris")) (cs ("par")) = true := rfl

/-! ## Extraction of JSON from noisy model output
(`_parse_model_questions` preprocessing, `utils.py` lines 82–134). -/

/-- Drop the literal `lit` from the front of `s`, or fail. -/
def dropLit : Str → Str → Option Str
  | s, [] => some s
  | [], _ :: _ => none
  | c :: rest, d :: drest => if c == d then dropLit rest drest else none

/-- The suffix of `s` strictly after the last `'\n'` of `s`, if any. -/
def afterNL : Str → Option Str
  | [] => none
  | c :: r =>
    match afterNL r with
    | some t => some t
    | none => if c == '\n' then some r else none

/-- Backtracking behavior of the regex fragment `\s*\n`: consume the maximal
whitespace run at the front of `s` up to and including its last newline;
fail when that run contains no newline. -/
def afterWsNewline (s : Str) : Option Str :=
  let run := s.takeWhile isPySpace
  let rest := s.dropWhile isPySpace
  match afterNL run with
  | some tailWs => some (tailWs ++ rest)
  | none => none

/-- Split `s` at the first occurrence of a literal triple backtick,
returning the part before it. -/
def beforeTicks : Str → Option Str
  | [] => none
  | s@(c :: rest) =>
    if startsWithL s (cs ("```")) then some []
    else
      match beforeTicks rest with
      | some b => some (c :: b)
      | none => none

/-- Match one fenced-block pattern anchored at the start of `s`:
`` ```\s*LABEL\s*\n(.*?)``` `` when `lab = some LABEL`, or
`` ```\s*\n(.*?)``` `` when `lab = none` (`re.DOTALL`, group returned). -/
def matchFenceAt (lab : Option Str) (s : Str) : Option Str :=
  match dropLit s (cs ("```")) with
  | none => none
  | some r0 =>
    let r1 : Option Str :=
      match lab with
      | some l => dropLit (r0.dropWhile isPySpace) l
      | none => some r0
    match r1 with
    | none => none
    | some r2 =>
      match afterWsNewline r2 with
      | none => none
      | some body => beforeTicks body

/-- `re.search` for one fenced-block pattern: earliest start position wins. -/
def searchFence (lab : Option Str) : Str → Option Str
  | [] => none
  | s@(_ :: rest) =>
    match matchFenceAt lab s with
    | some g => some g
    | none => searchFence lab rest

/-- The `fence_patterns` loop: a ```` ```json ```` fence anywhere beats a
```` ```JSON ```` fence anywhere beats a plain ```` ``` ```` fence. -/
def fenceExtract (text : Str) : Option Str :=
  match searchFence (some (cs ("json"))) text with
  | some g => some g
  | none =>
    match searchFence (some (cs ("JSON"))) text with
    | some g => some g
    | none => searchFence none text

/-- The bracket-depth scan of `_balanced_slice`: position (inclusive) of the
closing bracket balancing the first opening bracket, tracking string
literals and escapes exactly as the source loop does. -/
def scanBal (openC closeC : Char) : Str → Nat → Bool → Bool → Nat → Option Nat
  | [], _, _, _, _ => none
  | c :: rest, depth, inStr, esc, pos =>
    if inStr then
      if esc then scanBal openC closeC rest depth true false (pos + 1)
      else if c == '\\' then scanBal openC closeC rest depth true true (pos + 1)
      else if c == '"' then scanBal openC closeC rest depth false false (pos + 1)
      else scanBal openC closeC rest depth true false (pos + 1)
    else
      if c == '"' then scanBal openC closeC rest depth true false (pos + 1)
      else if c == openC then scanBal openC closeC rest (depth + 1) false false (pos + 1)
      else if c == closeC then
        if depth == 1 then some pos
        else scanBal openC closeC rest (depth - 1) false false (pos + 1)
      else scanBal openC closeC rest depth false false (pos + 1)

/-- `_balanced_slice(s, open, close)`: start at the first occurrence of the
opening bracket (`str.find`, not string-aware), scan to balance, return the
stripped slice. -/
def balancedSlice (s : Str) (openC closeC : Char) : Option Str :=
  let rest := s.dropWhile (fun c => !(c == openC))
  match rest with
  | [] => none
  | _ :: _ =>
    match scanBal openC closeC rest 0 false false 0 with
    | some pos => some (stripL (rest.take (pos + 1)))
    | none => none

/-- The extraction policy of `_parse_model_questions` on (pre-stripped)
text: fenced block first, else first balanced object, else first balanced
array, else the whole text. Fence groups are stripped (`m.group(1).strip()`);
balanced slices are stripped inside `_balanced_slice`. -/
def extractCandidate (text : Str) : Str :=
  match fenceExtract text with
  | some g => stripL g
  | none =>
    match balancedSlice text '\x7b' '\x7d' with
    | some o => o
    | none =>
      match balancedSlice text '[' ']' with
      | some a => a
      | none => text

/-! ## `json.loads` and the trailing-comma cleanup retry -/

/-- JSON inter-token whitespace accepted by `json.loads`. -/
def isJsonWs (c : Char) : Bool :=
  c == ' ' || c == '\t' || c == '\n' || c == '\r'

/-- Skip JSON whitespace. -/
def skipWs (s : Str) : Str := s.dropWhile isJsonWs

/-- `re.sub(r",\s*([}\]])", r"\1", src)`: drop a comma (and the whitespace
after it) when the next non-whitespace character closes an object/array. -/
def rmTrailGo (fuel : Nat) (s : Str) : Str :=
  match fuel, s with
  | 0, s => s
  | _, [] => []
  | f + 1, c :: rest =>
    if c == ',' then
      match rest.dropWhile isPySpace with
      | d :: tail =>
        if d == '\x7d' || d == ']' then d :: rmTrailGo f tail
        else ',' :: rmTrailGo f rest
      | [] => ',' :: rmTrailGo f rest
    else c :: rmTrailGo f rest

/-- Trailing-comma cleanup applied by `_loads_with_cleanup` on decode
failure. -/
def removeTrailingCommas (s : Str) : Str := rmTrailGo (s.length + 1) s

/-- Value of a hexadecimal digit. -/
def hexVal (c : Char) : Option Nat :=
  if '0' ≤ c ∧ c ≤ '9' then some (c.toNat - '0'.toNat)
  else if 'a' ≤ c ∧ c ≤ 'f' then some (c.toNat - 'a'.toNat + 10)
  else if 'A' ≤ c ∧ c ≤ 'F' then some (c.toNat - 'A'.toNat + 10)
  else none

/-- Decode one JSON string escape (the character after a backslash). -/
def decodeEsc (e : Char) (rest : Str) : Option (Char × Str) :=
  if e == '"' then some ('"', rest)
  else if e == '\\' then some ('\\', rest)
  else if e == '/' then some ('/', rest)
  else if e == 'b' then some ('\x08', rest)
  else if e == 'f' then some ('\x0c', rest)
  else if e == 'n' then some ('\n', rest)
  else if e == 'r' then some ('\r', rest)
  else if e == 't' then some ('\t', rest)
  else if e == 'u' then
    match rest with
    | h1 :: h2 :: h3 :: h4 :: r =>
      match hexVal h1, hexVal h2, hexVal h3, hexVal h4 with
      | some a, some b, some c, some d =>
        some (Char.ofNat (((a * 16 + b) * 16 + c) * 16 + d), r)
      | _, _, _, _ => none
    | _ => none
  else none

/-- Parse the body of a JSON string (after the opening quote), strict mode:
raw control characters are rejected as `json.loads` rejects them. -/
def parseStrBody (fuel : Nat) (s : Str) : Option (Str × Str) :=
  match fuel, s with
  | 0, _ => none
  | _, [] => none
  | f + 1, c :: r =>
    if c == '"' then some ([], r)
    else if c == '\\' then
      match r with
      | [] => none
      | e :: r2 =>
        match decodeEsc e r2 with
        | none => none
        | some (d, r3) =>
          match parseStrBody f r3 with
          | none => none
          | some (body, rest) => some (d :: body, rest)
    else if c.toNat < 32 then none
    else
      match parseStrBody f r with
      | none => none
      | some (body, rest) => some (c :: body, rest)

/-- ASCII digit test. -/
def isDigitC (c : Char) : Bool := '0' ≤ c ∧ c ≤ '9'

/-- Fold decimal digits into a natural number. -/
def digitsToNat (ds : Str) : Nat :=
  ds.foldl (fun acc c => acc * 10 + (c.toNat - '0'.toNat)) 0

/-- Parse a JSON integer literal. The pipeline's data carries no float
fields, so a fractional part or exponent is rejected rather than decoded
(where `json.loads` would produce a Python float). -/
def parseNum (s : Str) : Option (Int × Str) :=
  let (neg, s1) : Bool × Str :=
    match s with
    | '-' :: r => (true, r)
    | _ => (false, s)
  let digits := s1.takeWhile isDigitC
  let rest := s1.dropWhile isDigitC
  if digits.isEmpty then none
  else
    match rest with
    | '.' :: _ => none
    | 'e' :: _ => none
    | 'E' :: _ => none
    | _ =>
      let n : Int := Int.ofNat (digitsToNat digits)
      some (if neg then -n else n, rest)

mutual

/-- Parse one JSON value (leading whitespace allowed), fueled. -/
def parseJ (fuel : Nat) (s : Str) : Option (JValue × Str) :=
  match fuel with
  | 0 => none
  | f + 1 =>
    match skipWs s with
    | 'n' :: 'u' :: 'l' :: 'l' :: r => some (.jnull, r)
    | 't' :: 'r' :: 'u' :: 'e' :: r => some (.jbool true, r)
    | 'f' :: 'a' :: 'l' :: 's' :: 'e' :: r => some (.jbool false, r)
    | '"' :: r => (parseStrBody (r.length + 1) r).map (fun p => (.jstr p.1, p.2))
    | '[' :: r => parseArr f (skipWs r)
    | '\x7b' :: r => parseObj f (skipWs r)
    | t => (parseNum t).map (fun p => (.jnum p.1, p.2))

/-- Parse the contents of a JSON array after `[` and leading whitespace. -/
def parseArr (fuel : Nat) (s : Str) : Option (JValue × Str) :=
  match fuel with
  | 0 => none
  | f + 1 =>
    match s with
    | ']' :: r => some (.jarr [], r)
    | _ =>
      match parseJ f s with
      | none => none
      | some (v, rest) =>
        match parseArrLoop f rest with
        | none => none
        | some (vs, r2) => some (.jarr (v :: vs), r2)

/-- Parse `, value`* `]` after the first array element. -/
def parseArrLoop (fuel : Nat) (s : Str) : Option (List JValue × Str) :=
  match fuel with
  | 0 => none
  | f + 1 =>
    match skipWs s with
    | ']' :: r => some ([], r)
    | ',' :: r =>
      match parseJ f r with
      | none => none
      | some (v, rest) =>
        match parseArrLoop f rest with
        | none => none
        | some (vs, r2) => some (v :: vs, r2)
    | _ => none

/-- Parse one `"key": value` pair. -/
def parseKV (fuel : Nat) (s : Str) : Option ((Str × JValue) × Str) :=
  match fuel with
  | 0 => none
  | f + 1 =>
    match skipWs s with
    | '"' :: r =>
      match parseStrBody (r.length + 1) r with
      | none => none
      | some (k, r2) =>
        match skipWs r2 with
        | ':' :: r3 => (parseJ f r3).map (fun p => ((k, p.1), p.2))
        | _ => none
    | _ => none

/-- Parse the contents of a JSON object after `{` and leading whitespace. -/
def parseObj (fuel : Nat) (s : Str) : Option (JValue × Str) :=
  match fuel with
  | 0 => none
  | f + 1 =>
    match s with
    | '\x7d' :: r => some (.jobj [], r)
    | _ =>
      match parseKV f s with
      | none => none
      | some (kv, rest) =>
        match parseObjLoop f rest with
        | none => none
        | some (kvs, r2) => some (.jobj (kv :: kvs), r2)

/-- Parse `, "key": value`* `}` after the first object member. -/
def parseObjLoop (fuel : Nat) (s : Str) : Option (List (Str × JValue) × Str) :=
  match fuel with
  | 0 => none
  | f + 1 =>
    match skipWs s with
    | '\x7d' :: r => some ([], r)
    | ',' :: r =>
      match parseKV f r with
      | none => none
      | some (kv, rest) =>
        match parseObjLoop f rest with
        | none => none
        | some (kvs, r2) => some (kv :: kvs, r2)
    | _ => none

end

/-- `json.loads`: one value, then only trailing whitespace. -/
def jsonLoads (s : Str) : Option JValue :=
  match parseJ (s.length * 2 + 4) s with
  | some (v, rest) => if (skipWs rest).isEmpty then some v else none
  | none => none

/-- `_loads_with_cleanup`: plain decode, then on failure strip trailing
commas and retry. -/
def loadsWithCleanup (s : Str) : Option JValue :=
  match jsonLoads s with
  | some v => some v
  | none => jsonLoads (removeTrailingCommas s)

example : jsonLoads (cs ("[1, 2]")) = some (.jarr [.jnum 1, .jnum 2]) := rfl
example :
    jsonLoads (cs ("\x7b\"a\": \"x\"\x7d")) =
      some (.jobj [(cs ("a"), .jstr (cs ("x")))]) := rfl
example : jsonLoads (cs ("[1, 2,]")) = none := rfl
example : loadsWithCleanup (cs ("[1, 2,]")) = some (.jarr [.jnum 1, .jnum 2]) := rfl
example :
    extractCandidate (cs ("pre \x7b\"a\": [1]\x7d post")) =
      cs ("\x7b\"a\": [1]\x7d") := rfl
example :
    extractCandidate (cs ("```json\n[1]```")) = cs ("[1]") := rfl

/-! ## Question records and the schema/reconciliation phase
(`_parse_model_questions`, `utils.py` lines 146–241). -/

/-- The `Question` dataclass of `questions.py` (minus `raw_response`, which
is attached by the provider after parsing and never inspected by the
properties below). -/
structure Question where
  id : Str
  question : Str
  options : List Str
  topic : Str
  difficulty : Str
  answer : Str
  explanation : Str
deriving DecidableEq, Repr

/-- A question-like option-label letter `A`–`D` (either case). -/
def isOptLetter (c : Char) : Bool :=
  ('A' ≤ c ∧ c ≤ 'D') ∨ ('a' ≤ c ∧ c ≤ 'd')

/-- Label punctuation accepted after a letter: `)`, `.`, `:`, `-`. -/
def isLabelPunct (c : Char) : Bool :=
  c == ')' || c == '.' || c == ':' || c == '-'

/-- `_clean_option_text`: strip, then remove one leading label of the form
`\s*[A-Da-d]\s*[\).:\-]\s*`, then strip again. -/
def cleanText (s : Str) : Str :=
  let s0 := stripL s
  match s0.dropWhile isPySpace with
  | c :: rest =>
    if isOptLetter c then
      match rest.dropWhile isPySpace with
      | p :: rest2 =>
        if isLabelPunct p then stripL (rest2.dropWhile isPySpace) else s0
      | [] => s0
    else s0
  | [] => s0

/-- Option cleanup with the source's fallback: if cleaning leaves nothing,
keep the stripped original (`cleaned or str(opt).strip()`). -/
def cleanOption (s : Str) : Str :=
  let c := cleanText s
  if c.isEmpty then stripL s else c

/-- Is a decoded JSON value a string? -/
def isJStr : JValue → Bool
  | .jstr _ => true
  | _ => false

/-- The string payload of a decoded JSON string (placeholder otherwise,
used only under an `isJStr` guard). -/
def jStrVal : JValue → Str
  | .jstr s => s
  | _ => []

/-- Error message raised when options have the wrong shape. -/
def msgOptionsShape : Str :=
  cs ("Options must be a list of strings or a dict with A-D keys")

/-- Error message raised when the answer field is empty. -/
def msgAnswerEmpty : Str :=
  cs ("answer must be the full correct option text")

/-- Error message raised when the answer cannot be reconciled. -/
def msgAnswerMatch : Str :=
  cs ("answer text must exactly match one of the provided options")

/-- Error message standing for Python's `AttributeError` when `.strip()` is
called on a truthy non-string field. -/
def msgAttr : Str := cs ("AttributeError: strip")

/-- `format_options`: a list of strings is cleaned element-wise (its length
is not constrained); a dict is read at keys `A`–`D`, each value a non-empty
string; anything else is an error. -/
def formatOptions : Option JValue → Except Str (List Str)
  | some (.jarr xs) =>
    if xs.all isJStr then .ok (xs.map (fun v => cleanOption (jStrVal v)))
    else .error msgOptionsShape
  | some (.jobj fs) =>
    let ordered := [objGet fs (cs ("A")), objGet fs (cs ("B")),
                    objGet fs (cs ("C")), objGet fs (cs ("D"))]
    if ordered.all (fun o =>
        match o with
        | some (.jstr s) => !(stripL s).isEmpty
        | _ => false) then
      .ok (ordered.map (fun o => cleanOption (jStrVal (o.getD .jnull))))
    else .error msgOptionsShape
  | _ => .error msgOptionsShape

/-- First index whose option matches `target` case-insensitively after
stripping (`norm == str(opt).strip().lower()`). -/
def ciFindIdx (target : Str) (options : List Str) : Option Nat :=
  match options with
  | [] => none
  | opt :: rest =>
    if lowerL (stripL opt) = target then some 0
    else (ciFindIdx target rest).map (· + 1)

/-- Does a (stripped) answer match the single-letter pattern
`[A-Da-d]` or `[A-Da-d]\s*[\).:\-]?` in full? -/
def letterMatch (s : Str) : Bool :=
  match stripL s with
  | c :: rest =>
    isOptLetter c &&
      (match rest.dropWhile isPySpace with
       | [] => true
       | p :: rest2 => isLabelPunct p && rest2.isEmpty)
  | [] => false

/-- Positional index of a letter answer: `ord(letter.upper()) - ord('A')`. -/
def letterIdx (s : Str) : Nat :=
  match stripL s with
  | c :: _ => (asciiUpper c).toNat - 'A'.toNat
  | [] => 0

/-- Answer reconciliation (`utils.py` lines 195–224): exact case-insensitive
match keeps the raw answer; else strip a leading label and retry (only when
stripping changed the text to something non-empty), storing the matched
option; else map a bare letter `A`–`D` positionally; else fail. -/
def reconcileAnswer (answerRaw : Str) (options : List Str) : Except Str Str :=
  let norm := lowerL (stripL answerRaw)
  match ciFindIdx norm options with
  | some _ => .ok answerRaw
  | none =>
    let cleanedAns := cleanText answerRaw
    let fallback1 : Option Str :=
      if !cleanedAns.isEmpty ∧ lowerL cleanedAns ≠ norm then
        match ciFindIdx (lowerL (stripL cleanedAns)) options with
        | some i => some (options.getD i [])
        | none => none
      else none
    match fallback1 with
    | some t => .ok t
    | none =>
      if letterMatch answerRaw then
        let i := letterIdx answerRaw
        if i < options.length then .ok (options.getD i [])
        else .error msgAnswerMatch
      else .error msgAnswerMatch

/-- Read a field via `(obj.get(k) or default)` where the code then calls
`.strip()` on the result: a truthy non-string raises (modelled as an
error); a falsy value yields the default. -/
def fieldOrDefault (fs : List (Str × JValue)) (k : Str) (dflt : Str) :
    Except Str Str :=
  match objGet fs k with
  | none => .ok dflt
  | some v =>
    if jTruthy v then
      match v with
      | .jstr s => .ok s
      | _ => .error msgAttr
    else .ok dflt

/-- `str(obj.get(k) or default)`: never raises. -/
def strOrDefault (fs : List (Str × JValue)) (k : Str) (dflt : Str) : Str :=
  match objGet fs k with
  | none => dflt
  | some v => if jTruthy v then pyStr v else dflt

/-- Parse one item of the decoded list (a JSON object) into a `Question`
(`utils.py` lines 182–238); `idx` is the 1-based enumeration index. -/
def parseItem (fs : List (Str × JValue)) (idx : Nat) : Except Str Question :=
  let qid := strOrDefault fs (cs ("id")) (cs ("Q") ++ natStr idx)
  match fieldOrDefault fs (cs ("question")) [] with
  | .error e => .error e
  | .ok questionRaw =>
    let question :=
      let t := stripL questionRaw
      if t.isEmpty then cs ("Placeholder question ") ++ natStr idx else t
    match formatOptions (objGet fs (cs ("options"))) with
    | .error e => .error e
    | .ok options =>
      let answerRaw := stripL (pyStr ((objGet fs (cs ("answer"))).getD (.jstr [])))
      if answerRaw.isEmpty then .error msgAnswerEmpty
      else
        match reconcileAnswer answerRaw options with
        | .error e => .error e
        | .ok answerText =>
          match fieldOrDefault fs (cs ("topic")) (cs ("General")) with
          | .error e => .error e
          | .ok topicRaw =>
            match fieldOrDefault fs (cs ("difficulty")) (cs ("medium")) with
            | .error e => .error e
            | .ok diffRaw =>
              match fieldOrDefault fs (cs ("explanation")) [] with
              | .error e => .error e
              | .ok explRaw =>
                .ok
                  { id := qid
                    question := question
                    options := options
                    topic :=
                      let t := stripL topicRaw
                      if t.isEmpty then cs ("General") else t
                    difficulty :=
                      let t := stripL diffRaw
                      if t.isEmpty then cs ("medium") else t
                    answer := answerText
                    explanation := stripL explRaw }

/-- The item loop: non-dict entries are skipped (`continue`); the 1-based
enumeration index advances over every entry. -/
def parseItemsGo : List JValue → Nat → Except Str (List Question)
  | [], _ => .ok []
  | v :: rest, idx =>
    match v with
    | .jobj fs =>
      match parseItem fs idx with
      | .error e => .error e
      | .ok q =>
        match parseItemsGo rest (idx + 1) with
        | .error e => .error e
        | .ok qs => .ok (q :: qs)
    | _ => parseItemsGo rest (idx + 1)

/-- Error message for an empty parse result. -/
def msgNoQuestions (provider : Str) : Str :=
  provider ++ cs (": no questions parsed from model output")

/-- Error message for a non-list top-level shape. -/
def msgExpectedList (provider : Str) : Str :=
  provider ++ cs (": expected a list of questions")

/-- Error message for an empty response. -/
def msgEmptyResponse (provider : Str) : Str :=
  provider ++ cs (": empty response")

/-- Error message standing for a `json.JSONDecodeError` from both decode
attempts. -/
def msgDecode : Str := cs ("JSON decode failed")

/-- `_parse_model_questions(raw_json, provider)`: strip, extract, decode
(with the trailing-comma retry), accept a list — or, for provider
`ollama`, a single object treated as a one-element list — then parse every
dict item, failing if none survive. -/
def parseModelQuestions (rawJson : Str) (provider : Str) :
    Except Str (List Question) :=
  let text := stripL rawJson
  if text.isEmpty then .error (msgEmptyResponse provider)
  else
    let extracted := extractCandidate text
    match loadsWithCleanup extracted with
    | none => .error msgDecode
    | some data =>
      let itemsE : Except Str (List JValue) :=
        match data with
        | .jarr items => .ok items
        | .jobj fs =>
          if provider == cs ("ollama") then .ok [.jobj fs]
          else .error (msgExpectedList provider)
        | _ => .error (msgExpectedList provider)
      match itemsE with
      | .error e => .error e
      | .ok items =>
        match parseItemsGo items 1 with
        | .error e => .error e
        | .ok out =>
          if out.isEmpty then .error (msgNoQuestions provider)
          else .ok out

example :
    parseModelQuestions
      (cs ("\x7b\"question\": \"Pick\", \"options\": [\"10\",\"20\",\"30\",\"40\"], \"answer\": \"30\"\x7d"))
      (cs ("ollama")) =
    .ok [{ id := cs ("Q1"), question := cs ("Pick"),
           options := [cs ("10"), cs ("20"), cs ("30"), cs ("40")],
           topic := cs ("General"), difficulty := cs ("medium"),
           answer := cs ("30"), explanation := [] }] := rfl

example :
    parseModelQuestions
      (cs ("\x7b\"question\": \"Pick\", \"options\": [\"10\",\"20\",\"30\",\"40\"], \"answer\": \"C\"\x7d"))
      (cs ("ollama")) =
    .ok [{ id := cs ("Q1"), question := cs ("Pick"),
           options := [cs ("10"), cs ("20"), cs ("30"), cs ("40")],
           topic := cs ("General"), difficulty := cs ("medium"),
           answer := cs ("30"), explanation := [] }] := rfl

example : cleanOption (cs ("B) Paris")) = cs ("Paris") := rfl

/-! ## `Quiz.validate` and the emitted answer key
(`quiz_core.py` lines 35–48, `utils.py` `write_outputs`). -/

/-- The inner matching loop of `Quiz.validate`: first option index whose
lowered text equals the lowered answer, or whose lowered text starts with
the first five characters of the lowered answer. -/
def validateFindIdx (lower : Str) : List Str → Option Nat
  | [] => none
  | opt :: rest =>
    if lowerL opt == lower || startsWithL (lowerL opt) (lower.take 5) then some 0
    else (validateFindIdx lower rest).map (· + 1)

/-- Per-question normalization of `Quiz.validate`: an answer whose
upper-casing is not a bare `A`–`D` is replaced by the letter of the first
matching option (`q.answer = chr(ord('A')+idx)`). -/
def letterizeAnswer (q : Question) : Question :=
  if upperL q.answer == cs ("A") || upperL q.answer == cs ("B") ||
     upperL q.answer == cs ("C") || upperL q.answer == cs ("D") then q
  else
    match validateFindIdx (lowerL (stripL q.answer)) q.options with
    | some i => { q with answer := [Char.ofNat ('A'.toNat + i)] }
    | none => q

/-- The per-question body of `Quiz.validate`: normalize the answer, then
reject a question without exactly four options. -/
def validateGo : List Question → Except Str (List Question)
  | [] => .ok []
  | q :: rest =>
    let q' := letterizeAnswer q
    if q'.options.length ≠ 4 then
      .error (cs ("Question ") ++ q'.id ++ cs (" does not have 4 options"))
    else
      match validateGo rest with
      | .error e => .error e
      | .ok qs => .ok (q' :: qs)

/-- `Quiz.validate(questions, expected)`: count check, then the per-question
normalization and option-count check. Python mutates the list in place and
returns an error string or `None`; the embedding returns the mutated list
or the error. -/
def validateQuiz (questions : List Question) (expected : Nat) :
    Except Str (List Question) :=
  if questions.length ≠ expected then
    .error (cs ("Expected ") ++ natStr expected ++ cs (" questions, got ") ++
      natStr questions.length)
  else validateGo questions

/-- The `(id, answer)` pairs recorded in the `answer_key.json` mapping by
`write_outputs` (each entry also carries explanation and raw response,
which the verified properties do not inspect). -/
def answerKeyPairs (qs : List Question) : List (Str × Str) :=
  qs.map (fun q => (q.id, q.answer))

/-! ## The parse-retry loop of `Providers.ollama_questions`
(`providers.py` lines 121–181) and the per-question loop of `Quiz.run`
(`quiz_core.py` lines 69–105). -/

/-- The `while attempt <= max_retries` loop, abstracted over the parse
outcome of each attempt: the first success is returned; the failure of
attempt `max_retries` is re-raised (`raise`). -/
def attemptsGo (res : Nat → Except Str (List Question)) :
    Nat → Nat → Except Str (List Question)
  | attempt, remaining =>
    match res attempt, remaining with
    | .ok qs, _ => .ok qs
    | .error e, 0 => .error e
    | .error _, r + 1 => attemptsGo res (attempt + 1) r

/-- `Providers.ollama_questions`, reduced to its retry structure: attempt
`0` up to attempt `max_retries`. -/
def ollamaQuestionsResult (res : Nat → Except Str (List Question))
    (maxRetries : Nat) : Except Str (List Question) :=
  attemptsGo res 0 maxRetries

/-- `Quiz.run` sets `q.id = f"Q{idx+1}"` on the accepted question. -/
def setRunId (q : Question) (idx : Nat) : Question :=
  { q with id := cs ("Q") ++ natStr (idx + 1) }

/-- The `for idx in range(count)` loop of `Quiz.run`: each question comes
from one provider call (`gen idx`); an exception aborts the run; an empty
result list is skipped (`if qlist:`); otherwise the first returned question
is re-identified and collected. -/
def runQuizGo (gen : Nat → Except Str (List Question)) :
    Nat → Nat → Except Str (List Question)
  | _, 0 => .ok []
  | idx, n + 1 =>
    match gen idx with
    | .error e => .error e
    | .ok [] => runQuizGo gen (idx + 1) n
    | .ok (q :: _) =>
      match runQuizGo gen (idx + 1) n with
      | .error e => .error e
      | .ok qs => .ok (setRunId q idx :: qs)

/-- `Quiz.run`, abstracted over the per-question generation outcome. -/
def runQuiz (gen : Nat → Except Str (List Question)) (count : Nat) :
    Except Str (List Question) :=
  runQuizGo gen 0 count

/-! ## Theme rotation and retry nonces inside `ollama_questions`. -/

/-- The prompt variables a generation attempt carries that distinguish
retries: the active theme and the retry nonce (retries additionally rebuild
the corpus, which these properties do not inspect). -/
structure GenAttempt where
  theme : Option Str
  nonce : Option Str
deriving DecidableEq, Repr

/-- The retry-time next-theme computation (`providers.py` lines 139–151):
requires a non-empty theme list, a supplied `theme_index`, and an
initialized RAG document store; then picks
`themes[(theme_index + attempt) % len(themes)]`. -/
def retryTheme (themes : List Str) (themeIndex : Option Nat) (ragStore : Bool)
    (attempt : Nat) : Option Str :=
  match themeIndex with
  | some ti =>
    if !themes.isEmpty && ragStore then
      some (themes.getD ((ti + attempt) % themes.length) [])
    else none
  | none => none

/-- The variables used by a given attempt number: attempt `0` uses the base
theme and no nonce; each retry carries a fresh nonce (`uuid4().hex[:8]`,
modelled by the stream `nonces`) and overrides the theme only when the
next-theme computation produced a truthy value. -/
def attemptVars (baseTheme : Option Str) (themes : List Str)
    (themeIndex : Option Nat) (ragStore : Bool) (nonces : Nat → Str)
    (attempt : Nat) : GenAttempt :=
  if attempt == 0 then ⟨baseTheme, none⟩
  else
    let themeUsed :=
      match retryTheme themes themeIndex ragStore attempt with
      | some t => if t.isEmpty then baseTheme else some t
      | none => baseTheme
    ⟨themeUsed, some (nonces attempt)⟩

/-- The attempts actually performed by the retry loop, with their variables:
attempt `a` runs; if its parse fails and retries remain, attempt `a+1`
follows. -/
def traceGo (fail : Nat → Bool) (vars : Nat → GenAttempt) :
    Nat → Nat → List (Nat × GenAttempt)
  | attempt, remaining =>
    (attempt, vars attempt) ::
      (if fail attempt then
        match remaining with
        | 0 => []
        | r + 1 => traceGo fail vars (attempt + 1) r
      else [])

/-- The attempt trace of one `ollama_questions` call. -/
def ollamaAttemptTrace (fail : Nat → Bool) (maxRetries : Nat)
    (baseTheme : Option Str) (themes : List Str) (themeIndex : Option Nat)
    (ragStore : Bool) (nonces : Nat → Str) : List (Nat × GenAttempt) :=
  traceGo fail (attemptVars baseTheme themes themeIndex ragStore nonces) 0 maxRetries

/-! ## The transport retry loop of `LLMClient.run_ollama`
(`llm_client.py` lines 167–183). -/

/-- `payload.retry_delay or 1.0`: a zero delay falls back to the default. -/
def effDelay (d : ℚ) : ℚ := if d = 0 then 1 else d

/-- The dataclass default of `OllamaGeneratePayload.retry_delay`. -/
def defaultRetryDelay : ℚ := 1

/-- The `for attempt in range(retries + 1)` loop: each transport failure
before the last attempt sleeps `retry_delay * 2 ** attempt` and retries;
the last failure is re-raised. Returns the outcome and the list of sleeps
performed. -/
def transportGo {α : Type} (outcome : Nat → Except Str α) (delay : ℚ) :
    Nat → Nat → Except Str α × List ℚ
  | attempt, remaining =>
    match outcome attempt with
    | .ok r => (.ok r, [])
    | .error e =>
      match remaining with
      | 0 => (.error e, [])
      | r + 1 =>
        let next := transportGo outcome delay (attempt + 1) r
        (next.1, effDelay delay * 2 ^ attempt :: next.2)

/-- `LLMClient.run_ollama`, reduced to its transport retry structure,
abstracted over the per-attempt network outcome. -/
def runOllamaTransport {α : Type} (outcome : Nat → Except Str α)
    (retries : Nat) (delay : ℚ) : Except Str α × List ℚ :=
  transportGo outcome delay 0 retries

/-! ## `RAG._fetch_unique_tags` (`rag.py` lines 51–85). -/

/-- The dedup loop: empty (post-strip) and already-seen values are skipped,
first occurrences are kept in order. -/
def dedupTagsGo (seen : List Str) : List (Option Str) → List Str
  | [] => []
  | v :: rest =>
    let s := stripL (v.getD [])
    if s.isEmpty || seen.contains s then dedupTagsGo seen rest
    else s :: dedupTagsGo (s :: seen) rest

/-- `RAG._fetch_unique_tags`: over the (already shuffled) distinct metadata
rows, strip/dedup, then truncate to `max(1, max_retries + 1)`; any failure
to reach or read the store yields the empty list (`except: return []`).
`rows` is the post-shuffle row order; a `none` entry models a SQL NULL. -/
def fetchUniqueTags (rows : List (Option Str)) (maxRetries : Int)
    (dbOk : Bool) : List Str :=
  if dbOk then
    (dedupTagsGo [] rows).take (max 1 (maxRetries + 1)).toNat
  else []

/-! ## The relational insert of `validate_quiz_answers.auto_validate`
(`validate_quiz_answers.py` lines 249–283). -/

/-- A row of `test_questions`. -/
structure QuestionRow where
  question : Str
  questionUuid : Str
  explanation : Str
deriving DecidableEq, Repr

/-- A row of `test_answers`. -/
structure AnswerRow where
  questionUuid : Str
  option : Str
  trueOrFalse : Nat
deriving DecidableEq, Repr

/-- The correct-option search of the insert path: `-1` when the provided
answer text is empty or matches no option case-insensitively. -/
def correctOptionIdx (providedText : Str) (optionsList : List Str) : Int :=
  if providedText.isEmpty then -1
  else
    match ciFindIdx (lowerL (stripL providedText)) optionsList with
    | some i => (i : Int)
    | none => -1

/-- The rows written for one verdict-true question: one parent row, then
one child row per option whose flag is `1` exactly at the matched index. -/
def insertQuestionRows (questionText questionUuid explanationText : Str)
    (optionsList : List Str) (providedText : Str) :
    QuestionRow × List AnswerRow :=
  let cIdx := correctOptionIdx providedText optionsList
  (⟨questionText, questionUuid, explanationText⟩,
   optionsList.enum.map (fun p =>
     ⟨questionUuid, p.2, if (p.1 : Int) = cIdx then 1 else 0⟩))

/-! ## Clean JSON serialization of accepted questions (for the idempotence
property): the JSON text a cleanly-behaving model would emit for exactly
the accepted output, with `json.dumps` default separators. -/

/-- JSON string escaping for the serialized form (the fields serialized by
the properties below contain no other control characters). -/
def escapeJsonChar (c : Char) : Str :=
  if c == '"' then ['\\', '"']
  else if c == '\\' then ['\\', '\\']
  else if c == '\n' then ['\\', 'n']
  else if c == '\t' then ['\\', 't']
  else if c == '\r' then ['\\', 'r']
  else if c == '\x08' then ['\\', 'b']
  else if c == '\x0c' then ['\\', 'f']
  else [c]

/-- Render a JSON string literal. -/
def renderJStr (s : Str) : Str :=
  '"' :: (s.map escapeJsonChar).flatten ++ ['"']

/-- Comma-join with the `json.dumps` default item separator. -/
def joinComma : List Str → Str
  | [] => []
  | [s] => s
  | s :: rest => s ++ cs (", ") ++ joinComma rest

/-- One accepted question as a JSON object, fields in the order the parser
reads them. -/
def serializeQuestion (q : Question) : Str :=
  cs ("\x7b\"id\": ") ++ renderJStr q.id ++
  cs (", \"question\": ") ++ renderJStr q.question ++
  cs (", \"options\": [") ++ joinComma (q.options.map renderJStr) ++
  cs ("], \"topic\": ") ++ renderJStr q.topic ++
  cs (", \"difficulty\": ") ++ renderJStr q.difficulty ++
  cs (", \"answer\": ") ++ renderJStr q.answer ++
  cs (", \"explanation\": ") ++ renderJStr q.explanation ++ cs ("\x7d")

/-- A list of accepted questions as a JSON array. -/
def serializeQuestions (qs : List Question) : Str :=
  '[' :: joinComma (qs.map serializeQuestion) ++ [']']

/-- One accepted question as an already-decoded JSON object (the image of
`serializeQuestion` under `json.loads`). -/
def questionToJ (q : Question) : List (Str × JValue) :=
  [(cs ("id"), .jstr q.id),
   (cs ("question"), .jstr q.question),
   (cs ("options"), .jarr (q.options.map .jstr)),
   (cs ("topic"), .jstr q.topic),
   (cs ("difficulty"), .jstr q.difficulty),
   (cs ("answer"), .jstr q.answer),
   (cs ("explanation"), .jstr q.explanation)]

/-- The answer-reconciliation policy exactly as the specification words it
(§4.4): (1) exact case-insensitive match against an option → accepted as
supplied; (2) else strip a leading label pattern from the answer and retry
the match, storing the matched option text; (3) else map a bare single
letter A–D (optionally followed by label punctuation) positionally onto
the options; (4) else fail with the fixed message. -/
def specReconcile (ans : Str) (options : List Str) : Except Str Str :=
  match ciFindIdx (lowerL (stripL ans)) options with
  | some _ => .ok ans
  | none =>
    match ciFindIdx (lowerL (stripL (cleanText ans))) options with
    | some i => .ok (options.getD i [])
    | none =>
      if letterMatch ans ∧ letterIdx ans < options.length then
        .ok (options.getD (letterIdx ans) [])
      else .error msgAnswerMatch

/-- Invariants of every question accepted by `_parse_model_questions`,
established below: all textual fields are strip-stable, id and question
are non-empty, and the answer matches at least one option
case-insensitively. -/
def WellFormedQ (q : Question) : Prop :=
  q.id ≠ [] ∧
  stripL q.question = q.question ∧ q.question ≠ [] ∧
  (∀ o ∈ q.options, stripL o = o) ∧
  stripL q.answer = q.answer ∧
  stripL q.topic = q.topic ∧ q.topic ≠ [] ∧
  stripL q.difficulty = q.difficulty ∧ q.difficulty ≠ [] ∧
  stripL q.explanation = q.explanation ∧
  ∃ opt ∈ q.options, lowerL q.answer = lowerL opt

/-- A concrete well-behaved model response: full answer text, four
options. -/
def rawPick : Str :=
  cs ("\x7b\"question\": \"Pick\", \"options\": [\"10\",\"20\",\"30\",\"40\"], \"answer\": \"30\", \"explanation\": \"Because\"\x7d")

/-- The question the parser accepts from `rawPick`. -/
def qPick : Question :=
  { id := cs ("Q1"), question := cs ("Pick"),
    options := [cs ("10"), cs ("20"), cs ("30"), cs ("40")],
    topic := cs ("General"), difficulty := cs ("medium"),
    answer := cs ("30"), explanation := cs ("Because") }

/-- First of two accepted questions used in the idempotence analysis. -/
def qAlpha : Question :=
  { id := cs ("Q1"), question := cs ("Alpha"),
    options := [cs ("x"), cs ("y"), cs ("z"), cs ("w")],
    topic := cs ("General"), difficulty := cs ("medium"),
    answer := cs ("x"), explanation := [] }

/-- Second of two accepted questions used in the idempotence analysis. -/
def qBeta : Question :=
  { id := cs ("Q2"), question := cs ("Beta"),
    options := [cs ("p"), cs ("q"), cs ("r"), cs ("s")],
    topic := cs ("General"), difficulty := cs ("medium"),
    answer := cs ("p"), explanation := [] }

/-- A fenced two-question model response the parser accepts as
`[qAlpha, qBeta]`. -/
def rawTwoFenced : Str :=
  cs ("```json\n[\x7b\"id\": \"Q1\", \"question\": \"Alpha\", \"options\": [\"x\",\"y\",\"z\",\"w\"], \"answer\": \"x\"\x7d, \x7b\"id\": \"Q2\", \"question\": \"Beta\", \"options\": [\"p\",\"q\",\"r\",\"s\"], \"answer\": \"p\"\x7d]```")

/-! # Lemmas -/

theorem dropWhile_head_false {p : Char → Bool} :
    ∀ (l : Str) {c t}, l.dropWhile p = c :: t → p c = false := by
  intro l
  induction l with
  | nil => intro c t h; simp [List.dropWhile] at h
  | cons x xs ih =>
    intro c t h
    by_cases hx : p x
    · rw [List.dropWhile_cons_of_pos hx] at h
      exact ih h
    · rw [List.dropWhile_cons_of_neg hx] at h
      cases h
      simpa using hx

theorem dropWhile_app_singleton {p : Char → Bool} {c : Char}
    (h : p c = false) :
    ∀ xs : Str, (xs ++ [c]).dropWhile p = xs.dropWhile p ++ [c] := by
  intro xs
  induction xs with
  | nil => simp [List.dropWhile, h]
  | cons x rest ih =>
    by_cases hx : p x
    · simp only [List.cons_append, List.dropWhile_cons_of_pos hx, ih]
    · simp only [List.cons_append, List.dropWhile_cons_of_neg hx]

theorem dropWhile_idem {p : Char → Bool} :
    ∀ l : Str, (l.dropWhile p).dropWhile p = l.dropWhile p := by
  intro l
  induction l with
  | nil => simp
  | cons x rest ih =>
    by_cases hx : p x
    · simp only [List.dropWhile_cons_of_pos hx, ih]
    · simp only [List.dropWhile_cons_of_neg hx]

theorem stripL_idem (s : Str) : stripL (stripL s) = stripL s := by
  unfold stripL
  cases ha : s.dropWhile isPySpace with
  | nil => simp
  | cons c t =>
    have hc : isPySpace c = false := dropWhile_head_false s ha
    rw [List.reverse_cons, dropWhile_app_singleton hc t.reverse,
      List.reverse_append, List.reverse_singleton, List.singleton_append,
      List.dropWhile_cons_of_neg (by simp [hc]), List.reverse_cons,
      List.reverse_reverse, dropWhile_app_singleton hc,
      dropWhile_idem, List.reverse_append, List.reverse_singleton,
      List.singleton_append]

/-- A strip-stable string is invariant under a second strip; convenient
corollary shape. -/
theorem stripL_of_stable {s : Str} (h : stripL s = s) :
    stripL (stripL s) = s := by rw [stripL_idem, h]

theorem lowerL_eq_nil {s : Str} : lowerL s = [] ↔ s = [] := by
  simp [lowerL]

theorem natStrGo_ne_nil :
    ∀ (f n : Nat) (acc : Str), f ≠ 0 ∨ acc ≠ [] → natStrGo f n acc ≠ [] := by
  intro f
  induction f with
  | zero =>
    intro n acc h
    rcases h with h | h
    · exact absurd rfl h
    · simpa [natStrGo] using h
  | succ f ih =>
    intro n acc _
    unfold natStrGo
    by_cases hn : n < 10
    · simp [hn]
    · simp only [hn, if_false]
      exact ih (n / 10) _ (Or.inr (by simp))

theorem natStr_ne_nil (n : Nat) : natStr n ≠ [] :=
  natStrGo_ne_nil (n + 1) n [] (Or.inl (by simp))

theorem intStr_ne_nil (n : Int) : intStr n ≠ [] := by
  unfold intStr
  by_cases h : n < 0
  · simp [h]
  · simpa [h] using natStr_ne_nil n.natAbs

theorem pyStr_ne_nil_of_truthy {v : JValue} (h : jTruthy v = true) :
    pyStr v ≠ [] := by
  cases v with
  | jnull => simp [jTruthy] at h
  | jbool b => cases b <;> simp_all [jTruthy, pyStr, cs]
  | jnum n => simpa [pyStr] using intStr_ne_nil n
  | jstr s => simpa [jTruthy, pyStr] using h
  | jarr xs => simp [pyStr, cs]
  | jobj fs => simp [pyStr, cs]

theorem ciFindIdx_some_spec :
    ∀ (opts : List Str) (t : Str) (i : Nat), ciFindIdx t opts = some i →
      i < opts.length ∧ lowerL (stripL (opts.getD i [])) = t := by
  intro opts
  induction opts with
  | nil => intro t i h; simp [ciFindIdx] at h
  | cons o rest ih =>
    intro t i h
    unfold ciFindIdx at h
    by_cases ho : lowerL (stripL o) = t
    · rw [if_pos ho] at h
      cases h
      exact ⟨by simp, by simpa using ho⟩
    · rw [if_neg ho] at h
      cases hrest : ciFindIdx t rest with
      | none => rw [hrest] at h; simp at h
      | some j =>
        rw [hrest] at h
        simp only [Option.map_some'] at h
        obtain ⟨hlt, heq⟩ := ih t j hrest
        cases h
        exact ⟨by simpa using Nat.succ_lt_succ hlt, by simpa using heq⟩

theorem ciFindIdx_none_spec :
    ∀ (opts : List Str) (t : Str), ciFindIdx t opts = none →
      ∀ o ∈ opts, lowerL (stripL o) ≠ t := by
  intro opts
  induction opts with
  | nil => intro t _ o ho; simp at ho
  | cons x rest ih =>
    intro t h o ho
    unfold ciFindIdx at h
    by_cases hx : lowerL (stripL x) = t
    · rw [if_pos hx] at h; cases h
    · rw [if_neg hx] at h
      rcases List.mem_cons.mp ho with rfl | hmem
      · exact hx
      · cases hrest : ciFindIdx t rest with
        | none => exact ih t hrest o hmem
        | some j => rw [hrest] at h; simp at h

theorem ciFindIdx_isSome_of_mem :
    ∀ (opts : List Str) (t o : Str), o ∈ opts → lowerL (stripL o) = t →
      ∃ i, ciFindIdx t opts = some i := by
  intro opts
  induction opts with
  | nil => intro t o ho; simp at ho
  | cons x rest ih =>
    intro t o ho heq
    unfold ciFindIdx
    by_cases hx : lowerL (stripL x) = t
    · exact ⟨0, by rw [if_pos hx]⟩
    · rcases List.mem_cons.mp ho with rfl | hmem
      · exact absurd heq hx
      · obtain ⟨j, hj⟩ := ih t o hmem heq
        exact ⟨j + 1, by rw [if_neg hx, hj]; rfl⟩

theorem getD_mem_of_lt {l : List Str} {i : Nat} (h : i < l.length) :
    l.getD i [] ∈ l := by
  rw [List.getD_eq_getElem l [] h]
  exact List.getElem_mem h

theorem stripL_cleanText (s : Str) : stripL (cleanText s) = cleanText s := by
  unfold cleanText
  cases h1 : (stripL s).dropWhile isPySpace with
  | nil => simpa [h1] using stripL_idem s
  | cons c rest =>
    by_cases hc : isOptLetter c
    · cases h2 : rest.dropWhile isPySpace with
      | nil => simp [h1, hc, h2, stripL_idem]
      | cons p rest2 =>
        by_cases hp : isLabelPunct p
        · simp [h1, hc, h2, hp, stripL_idem]
        · simp [h1, hc, h2, hp, stripL_idem]
    · simp [h1, hc, stripL_idem]

theorem stripL_cleanOption (s : Str) :
    stripL (cleanOption s) = cleanOption s := by
  unfold cleanOption
  by_cases h : (cleanText s).isEmpty
  · simp [h, stripL_idem]
  · simp [h, stripL_cleanText]

theorem formatOptions_ok_stable {ov : Option JValue} {options : List Str}
    (h : formatOptions ov = .ok options) : ∀ o ∈ options, stripL o = o := by
  intro o ho
  cases ov with
  | none => simp [formatOptions] at h
  | some v =>
    cases v with
    | jarr xs =>
      simp only [formatOptions] at h
      split at h
      · cases h
        obtain ⟨x, _, rfl⟩ := List.mem_map.mp ho
        exact stripL_cleanOption _
      · cases h
    | jobj fs =>
      simp only [formatOptions] at h
      split at h
      · cases h
        obtain ⟨x, _, rfl⟩ := List.mem_map.mp ho
        exact stripL_cleanOption _
      · cases h
    | jnull => simp [formatOptions] at h
    | jbool b => simp [formatOptions] at h
    | jnum n => simp [formatOptions] at h
    | jstr s => simp [formatOptions] at h

theorem reconcileAnswer_ok_cases {ansRaw : Str} {options : List Str}
    {t : Str} (h : reconcileAnswer ansRaw options = .ok t) :
    (t = ansRaw ∧ ∃ o ∈ options, lowerL (stripL o) = lowerL (stripL ansRaw)) ∨
      t ∈ options := by
  unfold reconcileAnswer at h
  dsimp only at h
  cases h1 : ciFindIdx (lowerL (stripL ansRaw)) options with
  | some i =>
    rw [h1] at h
    cases h
    obtain ⟨hlt, heq⟩ := ciFindIdx_some_spec options _ i h1
    exact Or.inl ⟨rfl, options.getD i [], getD_mem_of_lt hlt, heq⟩
  | none =>
    rw [h1] at h
    dsimp only at h
    split at h
    · rename_i u hu
      cases h
      split at hu
      · cases h2 : ciFindIdx (lowerL (stripL (cleanText ansRaw))) options with
        | some i =>
          rw [h2] at hu
          cases hu
          exact Or.inr (getD_mem_of_lt (ciFindIdx_some_spec options _ i h2).1)
        | none => rw [h2] at hu; cases hu
      · cases hu
    · rename_i hnone
      split at h
      · split at h
        · cases h
          rename_i hlt
          exact Or.inr (getD_mem_of_lt hlt)
        · cases h
      · cases h

theorem stripL_eq_self_of_ends {s : Str}
    (h1 : ∀ c, s.head? = some c → isPySpace c = false)
    (h2 : ∀ c, s.getLast? = some c → isPySpace c = false) : stripL s = s := by
  cases s with
  | nil => rfl
  | cons c t =>
    have hc : isPySpace c = false := h1 c rfl
    unfold stripL
    rw [List.dropWhile_cons_of_neg (by simp [hc])]
    obtain ⟨d, hd⟩ : ∃ d, (c :: t).getLast? = some d := by
      cases hg : (c :: t).getLast? with
      | none => simp [List.getLast?_eq_none_iff] at hg
      | some d => exact ⟨d, rfl⟩
    have hdns := h2 d hd
    have hrev : (c :: t).reverse.head? = some d := by
      rw [List.head?_reverse]; exact hd
    cases hr : (c :: t).reverse with
    | nil => simp at hr
    | cons d' rr =>
      rw [hr] at hrev
      cases hrev
      rw [List.dropWhile_cons_of_neg (by simp [hdns]), ← hr,
        List.reverse_reverse]

theorem isPySpace_digit {d : Nat} (h : d < 10) :
    isPySpace (Char.ofNat ('0'.toNat + d)) = false := by
  interval_cases d <;> decide

theorem natStrGo_no_space :
    ∀ (f n : Nat) (acc : Str), (∀ c ∈ acc, isPySpace c = false) →
      ∀ c ∈ natStrGo f n acc, isPySpace c = false := by
  intro f
  induction f with
  | zero =>
    intro n acc hacc c hc
    exact hacc c (by simpa [natStrGo] using hc)
  | succ f ih =>
    intro n acc hacc c hc
    unfold natStrGo at hc
    by_cases hn : n < 10
    · rw [if_pos hn] at hc
      rcases List.mem_cons.mp hc with rfl | hmem
      · exact isPySpace_digit hn
      · exact hacc c hmem
    · rw [if_neg hn] at hc
      refine ih (n / 10) _ ?_ c hc
      intro x hx
      rcases List.mem_cons.mp hx with rfl | hxm
      · exact isPySpace_digit (Nat.mod_lt _ (by norm_num))
      · exact hacc x hxm

theorem natStr_no_space (n : Nat) : ∀ c ∈ natStr n, isPySpace c = false :=
  natStrGo_no_space (n + 1) n [] (by simp)

theorem stripL_placeholder (idx : Nat) :
    stripL (cs ("Placeholder question ") ++ natStr idx) =
      cs ("Placeholder question ") ++ natStr idx := by
  apply stripL_eq_self_of_ends
  · intro c hc
    have hp : (cs ("Placeholder question ") ++ natStr idx).head? = some 'P' :=
      rfl
    rw [hp] at hc
    cases hc
    decide
  · intro c hc
    rw [List.getLast?_append_of_ne_nil _ (natStr_ne_nil idx)] at hc
    have hmem : c ∈ (natStr idx).getLast? := by
      rw [Option.mem_def]; exact hc
    obtain ⟨hne, rfl⟩ := List.mem_getLast?_eq_getLast hmem
    exact natStr_no_space idx _ (List.getLast_mem hne)

theorem strOrDefault_ne_nil {fs : List (Str × JValue)} {k d : Str}
    (hd : d ≠ []) : strOrDefault fs k d ≠ [] := by
  unfold strOrDefault
  cases objGet fs k with
  | none => exact hd
  | some v =>
    by_cases hv : jTruthy v
    · simpa [hv] using pyStr_ne_nil_of_truthy hv
    · simpa [hv] using hd

theorem parseItem_wf {fs : List (Str × JValue)} {idx : Nat} {q : Question}
    (h : parseItem fs idx = .ok q) : WellFormedQ q := by
  unfold parseItem at h
  dsimp only at h
  cases hq1 : fieldOrDefault fs (cs ("question")) [] with
  | error e => rw [hq1] at h; cases h
  | ok questionRaw =>
    rw [hq1] at h
    dsimp only at h
    cases hopts : formatOptions (objGet fs (cs ("options"))) with
    | error e => rw [hopts] at h; cases h
    | ok options =>
      rw [hopts] at h
      dsimp only at h
      by_cases hae :
          (stripL (pyStr ((objGet fs (cs ("answer"))).getD (.jstr [])))).isEmpty
      · rw [if_pos hae] at h; cases h
      · rw [if_neg hae] at h
        cases hrec : reconcileAnswer
            (stripL (pyStr ((objGet fs (cs ("answer"))).getD (.jstr []))))
            options with
        | error e => rw [hrec] at h; cases h
        | ok answerText =>
          rw [hrec] at h
          dsimp only at h
          cases ht : fieldOrDefault fs (cs ("topic")) (cs ("General")) with
          | error e => rw [ht] at h; cases h
          | ok topicRaw =>
            rw [ht] at h
            dsimp only at h
            cases hdf : fieldOrDefault fs (cs ("difficulty")) (cs ("medium")) with
            | error e => rw [hdf] at h; cases h
            | ok diffRaw =>
              rw [hdf] at h
              dsimp only at h
              cases hex : fieldOrDefault fs (cs ("explanation")) [] with
              | error e => rw [hex] at h; cases h
              | ok explRaw =>
                rw [hex] at h
                dsimp only at h
                cases h
                have hoptStable : ∀ o ∈ options, stripL o = o :=
                  formatOptions_ok_stable hopts
                have hansRawStable :
                    stripL (stripL (pyStr ((objGet fs (cs ("answer"))).getD
                      (.jstr [])))) =
                    stripL (pyStr ((objGet fs (cs ("answer"))).getD
                      (.jstr []))) := stripL_idem _
                have hansCases := reconcileAnswer_ok_cases hrec
                refine ⟨?_, ?_, ?_, hoptStable, ?_, ?_, ?_, ?_, ?_, ?_, ?_⟩
                · exact strOrDefault_ne_nil (by simp [cs])
                · by_cases hqe : (stripL questionRaw).isEmpty
                  · simp only [hqe, if_true]
                    exact stripL_placeholder idx
                  · simp only [hqe, if_false]
                    exact stripL_idem _
                · by_cases hqe : (stripL questionRaw).isEmpty
                  · simp only [hqe, if_true]
                    simp [cs]
                  · simp only [hqe, if_false]
                    simpa using hqe
                · rcases hansCases with ⟨rfl, _⟩ | hmem
                  · exact hansRawStable
                  · exact hoptStable _ hmem
                · by_cases hte : (stripL topicRaw).isEmpty
                  · simp only [hte, if_true]; rfl
                  · simp only [hte, if_false]
                    exact stripL_idem _
                · by_cases hte : (stripL topicRaw).isEmpty
                  · simp only [hte, if_true]
                    simp [cs]
                  · simp only [hte, if_false]
                    simpa using hte
                · by_cases hde : (stripL diffRaw).isEmpty
                  · simp only [hde, if_true]; rfl
                  · simp only [hde, if_false]
                    exact stripL_idem _
                · by_cases hde : (stripL diffRaw).isEmpty
                  · simp only [hde, if_true]
                    simp [cs]
                  · simp only [hde, if_false]
                    simpa using hde
                · exact stripL_idem _
                · rcases hansCases with ⟨rfl, o, homem, heq⟩ | hmem
                  · refine ⟨o, homem, ?_⟩
                    calc lowerL (stripL (pyStr ((objGet fs (cs ("answer"))).getD
                          (.jstr []))))
                        = lowerL (stripL (stripL (pyStr ((objGet fs
                            (cs ("answer"))).getD (.jstr []))))) := by
                          rw [hansRawStable]
                      _ = lowerL (stripL o) := heq.symm
                      _ = lowerL o := by rw [hoptStable o homem]
                  · exact ⟨answerText, hmem, rfl⟩

theorem parseItemsGo_wf :
    ∀ (items : List JValue) (idx : Nat) (qs : List Question),
      parseItemsGo items idx = .ok qs → ∀ q ∈ qs, WellFormedQ q := by
  intro items
  induction items with
  | nil =>
    intro idx qs h q hq
    cases h
    simp at hq
  | cons v rest ih =>
    intro idx qs h q hq
    unfold parseItemsGo at h
    cases v with
    | jobj fs =>
      dsimp only at h
      cases hpi : parseItem fs idx with
      | error e => rw [hpi] at h; cases h
      | ok qn =>
        rw [hpi] at h
        dsimp only at h
        cases hrest : parseItemsGo rest (idx + 1) with
        | error e => rw [hrest] at h; cases h
        | ok qs' =>
          rw [hrest] at h
          dsimp only at h
          cases h
          rcases List.mem_cons.mp hq with rfl | hmem
          · exact parseItem_wf hpi
          · exact ih (idx + 1) qs' hrest q hmem
    | jnull => dsimp only at h; exact ih (idx + 1) qs h q hq
    | jbool b => dsimp only at h; exact ih (idx + 1) qs h q hq
    | jnum n => dsimp only at h; exact ih (idx + 1) qs h q hq
    | jstr s => dsimp only at h; exact ih (idx + 1) qs h q hq
    | jarr xs => dsimp only at h; exact ih (idx + 1) qs h q hq

theorem parseTop_ok_elim {provider : Str} {items : List JValue}
    {qs : List Question}
    (h : (match parseItemsGo items 1 with
          | .error e => .error e
          | .ok out =>
            if out.isEmpty then .error (msgNoQuestions provider)
            else .ok out) = Except.ok qs) :
    parseItemsGo items 1 = .ok qs ∧ qs ≠ [] := by
  cases hgo : parseItemsGo items 1 with
  | error e => rw [hgo] at h; cases h
  | ok out =>
    rw [hgo] at h
    dsimp only at h
    by_cases ho : out.isEmpty
    · rw [if_pos ho] at h; cases h
    · rw [if_neg ho] at h
      cases h
      exact ⟨rfl, by simpa using ho⟩

theorem parseModelQuestions_items {raw provider : Str} {qs : List Question}
    (h : parseModelQuestions raw provider = .ok qs) :
    ∃ items : List JValue, parseItemsGo items 1 = .ok qs ∧ qs ≠ [] := by
  unfold parseModelQuestions at h
  by_cases he : (stripL raw).isEmpty
  · rw [if_pos he] at h; cases h
  · rw [if_neg he] at h
    dsimp only at h
    cases hl : loadsWithCleanup (extractCandidate (stripL raw)) with
    | none => rw [hl] at h; cases h
    | some data =>
      rw [hl] at h
      dsimp only at h
      cases data with
      | jarr items =>
        dsimp only at h
        exact ⟨items, parseTop_ok_elim h⟩
      | jobj fs =>
        dsimp only at h
        by_cases hp : provider == cs ("ollama")
        · rw [if_pos hp] at h
          dsimp only at h
          exact ⟨[.jobj fs], parseTop_ok_elim h⟩
        · rw [if_neg hp] at h; dsimp only at h; cases h
      | jnull => dsimp only at h; cases h
      | jbool b => dsimp only at h; cases h
      | jnum n => dsimp only at h; cases h
      | jstr s => dsimp only at h; cases h

/-- Every question accepted by the parser is well-formed. -/
theorem parseModelQuestions_wf {raw provider : Str} {qs : List Question}
    (h : parseModelQuestions raw provider = .ok qs) :
    ∀ q ∈ qs, WellFormedQ q := by
  obtain ⟨items, hgo, _⟩ := parseModelQuestions_items h
  exact parseItemsGo_wf items 1 qs hgo

/-- The parser never returns an empty question list. -/
theorem parseModelQuestions_ne_nil {raw provider : Str} {qs : List Question}
    (h : parseModelQuestions raw provider = .ok qs) : qs ≠ [] :=
  (parseModelQuestions_items h).choose_spec.2

/-! # Claim theorems -/

set_option maxRecDepth 8000 in
/-- Claim C1 (code bug in `Quiz.validate`): on a successful run whose parsed
answer is the exact option text `"30"`, `Quiz.validate` rewrites the answer
to the bare letter `"C"` before `write_outputs` records it, so the
answer-key mapping for `Q1` holds `"C"` — a bare letter that is not any of
the question's four option texts, contradicting the claimed output
contract. -/
theorem c1_answer_key_records_bare_letter :
    parseModelQuestions rawPick (cs ("ollama")) = .ok [qPick] ∧
    validateQuiz [setRunId qPick 0] 1 =
      .ok [{ setRunId qPick 0 with answer := cs ("C") }] ∧
    answerKeyPairs [{ setRunId qPick 0 with answer := cs ("C") }] =
      [(cs ("Q1"), cs ("C"))] ∧
    cs ("C") ∉ qPick.options ∧
    upperL (cs ("C")) = cs ("C") := by
  refine ⟨rfl, rfl, rfl, by decide, rfl⟩

/-- Rows with index strictly above the matched one are never flagged
(helper for claim C10). -/
theorem flaggedRows_nil_of_lt (uuid : Str) (cIdx : Int) :
    ∀ (opts : List Str) (n : Nat), cIdx < (n : Int) →
      ((List.enumFrom n opts).map (fun p =>
          (⟨uuid, p.2, if (p.1 : Int) = cIdx then 1 else 0⟩ : AnswerRow))).filter
        (fun r => r.trueOrFalse == 1) = [] := by
  intro opts
  induction opts with
  | nil => intro n _; rfl
  | cons o rest ih =>
    intro n hn
    have hne : ¬((n : Int) = cIdx) := by omega
    simp [List.enumFrom, List.filter_cons, hne, ih (n + 1) (by omega)]

/-- At most one child row is flagged (helper for claim C10). -/
theorem flaggedRows_le_one (uuid : Str) (cIdx : Int) :
    ∀ (opts : List Str) (n : Nat),
      (((List.enumFrom n opts).map (fun p =>
          (⟨uuid, p.2, if (p.1 : Int) = cIdx then 1 else 0⟩ : AnswerRow))).filter
        (fun r => r.trueOrFalse == 1)).length ≤ 1 := by
  intro opts
  induction opts with
  | nil => intro n; simp
  | cons o rest ih =>
    intro n
    by_cases hn : (n : Int) = cIdx
    · have hrest := flaggedRows_nil_of_lt uuid cIdx rest (n + 1) (by omega)
      simp [List.enumFrom, List.filter_cons, hn, hrest]
    · simpa [List.enumFrom, List.filter_cons, hn] using ih (n + 1)

/-- Claim C10: in the validator's relational insert, a verdict-true
question whose stored answer matches none of its options still yields one
parent row and one child row per option, every child flag `0`; and in
general the child rows flag at most one option. -/
theorem c10_unmatched_answer_rows :
    (∀ (qt uuid expl provided : Str) (opts : List Str),
      (∀ o ∈ opts, lowerL (stripL o) ≠ lowerL (stripL provided)) →
      (insertQuestionRows qt uuid expl opts provided).1 = ⟨qt, uuid, expl⟩ ∧
        ((insertQuestionRows qt uuid expl opts provided).2).length =
          opts.length ∧
        ∀ r ∈ (insertQuestionRows qt uuid expl opts provided).2,
          r.trueOrFalse = 0) ∧
    ∀ (qt uuid expl provided : Str) (opts : List Str),
      (((insertQuestionRows qt uuid expl opts provided).2).filter
        (fun r => r.trueOrFalse == 1)).length ≤ 1 := by
  constructor
  · intro qt uuid expl provided opts hno
    have hidx : correctOptionIdx provided opts = -1 := by
      unfold correctOptionIdx
      by_cases hp : provided.isEmpty
      · rw [if_pos hp]
      · rw [if_neg hp]
        cases hci : ciFindIdx (lowerL (stripL provided)) opts with
        | none => rfl
        | some i =>
          exfalso
          obtain ⟨hlt, heq⟩ := ciFindIdx_some_spec opts _ i hci
          exact hno _ (getD_mem_of_lt hlt) heq
    refine ⟨rfl, by simp [insertQuestionRows], ?_⟩
    intro r hr
    unfold insertQuestionRows at hr
    rw [hidx] at hr
    obtain ⟨p, _, rfl⟩ := List.mem_map.mp hr
    have : ¬((p.1 : Int) = -1) := by omega
    simp [this]
  · intro qt uuid expl provided opts
    unfold insertQuestionRows
    exact flaggedRows_le_one uuid _ opts 0

/-- Witness for claim C10: option texts `10/20/30/40` with stored answer
`"C"` (the letter the buggy validate step records) match nothing; the
parent row is still written. -/
theorem c10_unmatched_answer_rows_witness :
    (insertQuestionRows (cs ("Pick")) (cs ("uuid-1")) (cs ("Because"))
        [cs ("10"), cs ("20"), cs ("30"), cs ("40")] (cs ("C"))).1 =
      ⟨cs ("Pick"), cs ("uuid-1"), cs ("Because")⟩ :=
  (c10_unmatched_answer_rows.1 _ _ _ _ _ (by decide)).1

/-- Dedup output is duplicate-free and avoids the seen set (helper for
claim C8). -/
theorem dedupTagsGo_nodup :
    ∀ (rows : List (Option Str)) (seen : List Str),
      (dedupTagsGo seen rows).Nodup ∧
        ∀ s ∈ dedupTagsGo seen rows, s ∉ seen := by
  intro rows
  induction rows with
  | nil => intro seen; exact ⟨List.nodup_nil, by simp [dedupTagsGo]⟩
  | cons v rest ih =>
    intro seen
    unfold dedupTagsGo
    dsimp only
    by_cases hskip :
        (stripL (v.getD [])).isEmpty || seen.contains (stripL (v.getD []))
    · rw [if_pos hskip]
      exact ih seen
    · rw [if_neg hskip]
      have hnc : ¬seen.contains (stripL (v.getD [])) := by
        intro hc
        exact hskip (by rw [hc, Bool.or_true])
      have hmem : stripL (v.getD []) ∉ seen := by
        intro hm
        exact hnc (List.elem_eq_true_of_mem hm)
      obtain ⟨hnd, havoid⟩ := ih (stripL (v.getD []) :: seen)
      refine ⟨List.nodup_cons.mpr ⟨?_, hnd⟩, ?_⟩
      · intro hin
        exact havoid _ hin (List.mem_cons_self _ _)
      · intro s hs
        rcases List.mem_cons.mp hs with rfl | hs'
        · exact hmem
        · intro hseen
          exact havoid s hs' (List.mem_cons_of_mem _ hseen)

/-- Claim C8: `_fetch_unique_tags` returns a deduplicated list truncated to
at most `max(1, max_retries + 1)` entries (at most 3 for
`max_retries = 2`), and any store failure yields the empty list instead of
an exception. -/
theorem c8_theme_pool_sizing :
    (∀ (rows : List (Option Str)) (mr : Int) (dbOk : Bool),
      (fetchUniqueTags rows mr dbOk).length ≤ (max 1 (mr + 1)).toNat) ∧
    (∀ rows : List (Option Str), (fetchUniqueTags rows 2 true).length ≤ 3) ∧
    (∀ (rows : List (Option Str)) (mr : Int),
      fetchUniqueTags rows mr false = []) ∧
    ∀ (rows : List (Option Str)) (mr : Int) (dbOk : Bool),
      (fetchUniqueTags rows mr dbOk).Nodup := by
  refine ⟨?_, ?_, ?_, ?_⟩
  · intro rows mr dbOk
    unfold fetchUniqueTags
    by_cases hdb : dbOk
    · simp only [hdb, if_true]
      exact List.length_take_le _ _
    · simp [hdb]
  · intro rows
    have h := (by
      unfold fetchUniqueTags
      simp only [if_true]
      exact List.length_take_le _ _ :
        (fetchUniqueTags rows 2 true).length ≤ (max 1 ((2 : Int) + 1)).toNat)
    simpa using h
  · intro rows mr; rfl
  · intro rows mr dbOk
    unfold fetchUniqueTags
    by_cases hdb : dbOk
    · simp only [hdb, if_true]
      exact ((dedupTagsGo_nodup rows []).1).sublist (List.take_sublist _ _)
    · simp [hdb]

/-- Success after `k` failures: the loop returns the success and has slept
`delay * 2^a` for each failed attempt `a` (helper for claim C7). -/
theorem transportGo_ok {α : Type} (outcome : Nat → Except Str α) (delay : ℚ) :
    ∀ (k attempt remaining : Nat) (r : α), k ≤ remaining →
      (∀ a, a < k → ∃ e, outcome (attempt + a) = .error e) →
      outcome (attempt + k) = .ok r →
      transportGo outcome delay attempt remaining =
        (.ok r, (List.range k).map
          (fun a => effDelay delay * 2 ^ (attempt + a))) := by
  intro k
  induction k with
  | zero =>
    intro attempt remaining r _ _ hok
    rw [Nat.add_zero] at hok
    unfold transportGo
    rw [hok]
    simp
  | succ k ih =>
    intro attempt remaining r hk hfail hok
    obtain ⟨e, he⟩ := hfail 0 (Nat.succ_pos k)
    rw [Nat.add_zero] at he
    obtain ⟨rem, rfl⟩ : ∃ rem, remaining = rem + 1 :=
      ⟨remaining - 1, by omega⟩
    have hfail' : ∀ a, a < k → ∃ e, outcome (attempt + 1 + a) = .error e := by
      intro a ha
      obtain ⟨e', he'⟩ := hfail (a + 1) (by omega)
      refine ⟨e', ?_⟩
      have hsh : attempt + 1 + a = attempt + (a + 1) := by omega
      rw [hsh]
      exact he'
    have hok' : outcome (attempt + 1 + k) = .ok r := by
      have hsh : attempt + 1 + k = attempt + (k + 1) := by omega
      rw [hsh]
      exact hok
    have hrec := ih (attempt + 1) rem r (by omega) hfail' hok'
    unfold transportGo
    rw [he]
    dsimp only
    rw [hrec]
    refine Prod.ext rfl ?_
    dsimp only
    rw [List.range_succ_eq_map, List.map_cons, List.map_map]
    refine congrArg₂ _ (by rw [Nat.add_zero]) ?_
    refine List.map_congr_left ?_
    intro a _
    simp only [Function.comp_apply]
    have hsh : attempt + 1 + a = attempt + (a + 1) := by omega
    rw [hsh]

/-- Exhaustion: when every attempt fails, the final attempt's error is
returned after sleeping for each earlier attempt (helper for claim C7). -/
theorem transportGo_err {α : Type} (outcome : Nat → Except Str α) (delay : ℚ) :
    ∀ (remaining attempt : Nat),
      (∀ a, a ≤ remaining → ∃ e, outcome (attempt + a) = .error e) →
      ∃ e, outcome (attempt + remaining) = .error e ∧
        transportGo outcome delay attempt remaining =
          (.error e, (List.range remaining).map
            (fun a => effDelay delay * 2 ^ (attempt + a))) := by
  intro remaining
  induction remaining with
  | zero =>
    intro attempt hfail
    obtain ⟨e, he⟩ := hfail 0 (le_refl 0)
    rw [Nat.add_zero] at he
    refine ⟨e, by rw [Nat.add_zero]; exact he, ?_⟩
    unfold transportGo
    rw [he]
    simp
  | succ rem ih =>
    intro attempt hfail
    obtain ⟨e0, he0⟩ := hfail 0 (Nat.zero_le _)
    rw [Nat.add_zero] at he0
    have hfail' : ∀ a, a ≤ rem → ∃ e, outcome (attempt + 1 + a) = .error e := by
      intro a ha
      obtain ⟨e', he'⟩ := hfail (a + 1) (by omega)
      refine ⟨e', ?_⟩
      have hsh : attempt + 1 + a = attempt + (a + 1) := by omega
      rw [hsh]
      exact he'
    obtain ⟨e, hlast, hrec⟩ := ih (attempt + 1) hfail'
    have hlast' : outcome (attempt + (rem + 1)) = .error e := by
      have hsh : attempt + (rem + 1) = attempt + 1 + rem := by omega
      rw [hsh]
      exact hlast
    refine ⟨e, hlast', ?_⟩
    unfold transportGo
    rw [he0]
    dsimp only
    rw [hrec]
    refine Prod.ext rfl ?_
    dsimp only
    rw [List.range_succ_eq_map, List.map_cons, List.map_map]
    refine congrArg₂ _ (by rw [Nat.add_zero]) ?_
    refine List.map_congr_left ?_
    intro a _
    simp only [Function.comp_apply]
    have hsh : attempt + 1 + a = attempt + (a + 1) := by omega
    rw [hsh]

/-- Claim C7: the transport loop of `run_ollama` retries up to `retries`
times, sleeping `delay * 2^attempt` before each retry (with the zero/unset
delay falling back to the dataclass default of 1 second), and the final
failure after exhausting the retries is re-raised to the caller. -/
theorem c7_transport_retry_backoff :
    (∀ (α : Type) (outcome : Nat → Except Str α) (retries : Nat) (delay : ℚ)
        (k : Nat) (r : α), k ≤ retries →
      (∀ a, a < k → ∃ e, outcome a = .error e) →
      outcome k = .ok r →
      runOllamaTransport outcome retries delay =
        (.ok r, (List.range k).map (fun a => effDelay delay * 2 ^ a))) ∧
    (∀ (α : Type) (outcome : Nat → Except Str α) (retries : Nat) (delay : ℚ),
      (∀ a, a ≤ retries → ∃ e, outcome a = .error e) →
      ∃ e, outcome retries = .error e ∧
        runOllamaTransport outcome retries delay =
          (.error e, (List.range retries).map
            (fun a => effDelay delay * 2 ^ a))) ∧
    defaultRetryDelay = 1 := by
  refine ⟨?_, ?_, rfl⟩
  · intro α outcome retries delay k r hk hfail hok
    have := transportGo_ok outcome delay k 0 retries r hk
      (fun a ha => by simpa using hfail a ha) (by simpa using hok)
    simpa [runOllamaTransport] using this
  · intro α outcome retries delay hfail
    obtain ⟨e, hlast, hrun⟩ := transportGo_err outcome delay retries 0
      (fun a ha => by simpa using hfail a ha)
    refine ⟨e, by simpa using hlast, ?_⟩
    simpa [runOllamaTransport] using hrun

/-- A successful retry loop got its value from some attempt (helper for
claim C3). -/
theorem attemptsGo_ok_exists {res : Nat → Except Str (List Question)} :
    ∀ (remaining attempt : Nat) (qs : List Question),
      attemptsGo res attempt remaining = .ok qs → ∃ a, res a = .ok qs := by
  intro remaining
  induction remaining with
  | zero =>
    intro attempt qs h
    unfold attemptsGo at h
    cases hr : res attempt with
    | ok qs' => rw [hr] at h; cases h; exact ⟨attempt, hr⟩
    | error e => rw [hr] at h; cases h
  | succ rem ih =>
    intro attempt qs h
    unfold attemptsGo at h
    cases hr : res attempt with
    | ok qs' => rw [hr] at h; cases h; exact ⟨attempt, hr⟩
    | error e =>
      rw [hr] at h
      exact ih (attempt + 1) qs h

/-- When every attempt fails, the loop re-raises the last attempt's error
(helper for claim C3). -/
theorem attemptsGo_all_fail {res : Nat → Except Str (List Question)} :
    ∀ (remaining attempt : Nat),
      (∀ a, a ≤ remaining → ∃ e, res (attempt + a) = .error e) →
      ∃ e, res (attempt + remaining) = .error e ∧
        attemptsGo res attempt remaining = .error e := by
  intro remaining
  induction remaining with
  | zero =>
    intro attempt hfail
    obtain ⟨e, he⟩ := hfail 0 (le_refl 0)
    rw [Nat.add_zero] at he
    refine ⟨e, by rw [Nat.add_zero]; exact he, ?_⟩
    unfold attemptsGo
    rw [he]
  | succ rem ih =>
    intro attempt hfail
    obtain ⟨e0, he0⟩ := hfail 0 (Nat.zero_le _)
    rw [Nat.add_zero] at he0
    have hfail' : ∀ a, a ≤ rem → ∃ e, res (attempt + 1 + a) = .error e := by
      intro a ha
      obtain ⟨e', he'⟩ := hfail (a + 1) (by omega)
      refine ⟨e', ?_⟩
      have hsh : attempt + 1 + a = attempt + (a + 1) := by omega
      rw [hsh]
      exact he'
    obtain ⟨e, hlast, hrec⟩ := ih (attempt + 1) hfail'
    have hlast' : res (attempt + (rem + 1)) = .error e := by
      have hsh : attempt + (rem + 1) = attempt + 1 + rem := by omega
      rw [hsh]
      exact hlast
    refine ⟨e, hlast', ?_⟩
    unfold attemptsGo
    rw [he0]
    exact hrec

/-- Counting: when no provider call returns an empty list, a successful run
collects exactly one question per index (helper for claim C3). -/
theorem runQuizGo_length {gen : Nat → Except Str (List Question)}
    (hne : ∀ i qs, gen i = .ok qs → qs ≠ []) :
    ∀ (n idx : Nat) (qs : List Question),
      runQuizGo gen idx n = .ok qs → qs.length = n := by
  intro n
  induction n with
  | zero =>
    intro idx qs h
    cases h
    rfl
  | succ n ih =>
    intro idx qs h
    unfold runQuizGo at h
    cases hg : gen idx with
    | error e => rw [hg] at h; cases h
    | ok qlist =>
      rw [hg] at h
      cases qlist with
      | nil => exact absurd rfl (hne idx [] hg)
      | cons q rest =>
        dsimp only at h
        cases hrest : runQuizGo gen (idx + 1) n with
        | error e => rw [hrest] at h; cases h
        | ok qs' =>
          rw [hrest] at h
          cases h
          simpa using ih (idx + 1) qs' hrest

/-- Propagation: a failed provider call aborts the whole run with that
error (helper for claim C3). -/
theorem runQuizGo_error {gen : Nat → Except Str (List Question)} {e : Str} :
    ∀ (i n idx : Nat), i < n →
      (∀ j, j < i → ∃ qs, gen (idx + j) = .ok qs) →
      gen (idx + i) = .error e →
      runQuizGo gen idx n = .error e := by
  intro i
  induction i with
  | zero =>
    intro n idx hn _ herr
    rw [Nat.add_zero] at herr
    obtain ⟨m, rfl⟩ : ∃ m, n = m + 1 := ⟨n - 1, by omega⟩
    unfold runQuizGo
    rw [herr]
  | succ i ih =>
    intro n idx hn hok herr
    obtain ⟨m, rfl⟩ : ∃ m, n = m + 1 := ⟨n - 1, by omega⟩
    obtain ⟨qs0, hq0⟩ := hok 0 (Nat.succ_pos i)
    rw [Nat.add_zero] at hq0
    have hok' : ∀ j, j < i → ∃ qs, gen (idx + 1 + j) = .ok qs := by
      intro j hj
      obtain ⟨qs', hq'⟩ := hok (j + 1) (by omega)
      refine ⟨qs', ?_⟩
      have hsh : idx + 1 + j = idx + (j + 1) := by omega
      rw [hsh]
      exact hq'
    have herr' : gen (idx + 1 + i) = .error e := by
      have hsh : idx + 1 + i = idx + (i + 1) := by omega
      rw [hsh]
      exact herr
    have hrec := ih m (idx + 1) (by omega) hok' herr'
    unfold runQuizGo
    rw [hq0]
    cases qs0 with
    | nil => exact hrec
    | cons q rest =>
      dsimp only
      rw [hrec]

/-- Claim C3: with parse outcomes that never yield an empty question list
(which the parser guarantees, `parseModelQuestions_ne_nil`), a run either
returns exactly `count` questions or aborts: if some question's attempts
all fail while every earlier question succeeded, the last attempt's parse
error becomes the error of the whole run. -/
theorem c3_exact_count_or_hard_fail :
    ∀ (parses : Nat → Nat → Except Str (List Question)) (maxR count : Nat),
      (∀ i a qs, parses i a = .ok qs → qs ≠ []) →
      (∀ qs, runQuiz (fun i => ollamaQuestionsResult (parses i) maxR) count =
        .ok qs → qs.length = count) ∧
      ∀ i, i < count →
        (∀ j, j < i → ∃ qs,
          ollamaQuestionsResult (parses j) maxR = .ok qs) →
        (∀ a, a ≤ maxR → ∃ e, parses i a = .error e) →
        ∃ e, parses i maxR = .error e ∧
          runQuiz (fun i => ollamaQuestionsResult (parses i) maxR) count =
            .error e := by
  intro parses maxR count hne
  constructor
  · intro qs hrun
    refine runQuizGo_length ?_ count 0 qs hrun
    intro i qs' hg
    obtain ⟨a, ha⟩ := attemptsGo_ok_exists maxR 0 qs' hg
    exact hne i a qs' ha
  · intro i hi hearlier hfail
    obtain ⟨e, hlast, hloop⟩ := attemptsGo_all_fail maxR 0
      (fun a ha => by simpa using hfail a ha)
    rw [Nat.zero_add] at hlast
    refine ⟨e, hlast, ?_⟩
    exact runQuizGo_error i count 0 hi
      (fun j hj => by simpa using hearlier j hj) (by simpa using hloop)

set_option maxRecDepth 8000 in
/-- Witness for claim C3: question index 0 parses cleanly, question index 1
returns an empty response on both attempts (`max_retries = 1`), so the
whole run fails with that parse error. -/
theorem c3_exact_count_or_hard_fail_witness :
    runQuiz (fun i => ollamaQuestionsResult
      (fun _ => parseModelQuestions (if i == 0 then rawPick else [])
        (cs ("ollama"))) 1) 2 =
    .error (msgEmptyResponse (cs ("ollama"))) := by
  have h := (c3_exact_count_or_hard_fail
    (fun i _ => parseModelQuestions (if i == 0 then rawPick else [])
      (cs ("ollama"))) 1 2
    (fun i a qs hq => parseModelQuestions_ne_nil hq)).2 1 (by omega)
    (fun j hj => by
      interval_cases j
      exact ⟨[qPick], rfl⟩)
    (fun a ha => ⟨msgEmptyResponse (cs ("ollama")), rfl⟩)
  obtain ⟨e, hlast, hrun⟩ := h
  have he : (Except.error (msgEmptyResponse (cs ("ollama"))) :
      Except Str (List Question)) = .error e := by
    rw [← hlast]
    rfl
  injection he with he'
  rw [hrun, he']

set_option maxRecDepth 8000 in
/-- Claim C2 counterexample: `format_options` never checks the length of a
plain option list, so the parser accepts a question with three options —
violating the claimed `len(options) == 4` invariant of its output. -/
theorem c2_parser_invariant_counterexample :
    parseModelQuestions
      (cs ("\x7b\"question\": \"Q\", \"options\": [\"x\",\"y\",\"z\"], \"answer\": \"x\"\x7d"))
      (cs ("ollama")) =
    .ok [{ id := cs ("Q1"), question := cs ("Q"),
           options := [cs ("x"), cs ("y"), cs ("z")],
           topic := cs ("General"), difficulty := cs ("medium"),
           answer := cs ("x"), explanation := [] }] ∧
    [cs ("x"), cs ("y"), cs ("z")].length ≠ 4 := by
  exact ⟨rfl, by decide⟩

/-- Claim C2 (amended): every question the parser returns has an answer
matching at least one option case-insensitively; the option count is not
constrained to four by the parser itself (only the letter-keyed dict form
and the later `Quiz.validate` enforce four). -/
theorem c2_answer_matches_option_amended :
    ∀ (raw provider : Str) (qs : List Question),
      parseModelQuestions raw provider = .ok qs →
      ∀ q ∈ qs, ∃ opt ∈ q.options, lowerL q.answer = lowerL opt := by
  intro raw provider qs h q hq
  obtain ⟨_, _, _, _, _, _, _, _, _, _, hci⟩ := parseModelQuestions_wf h q hq
  exact hci

set_option maxRecDepth 8000 in
/-- Witness for claim C2 (amended), at the concrete run of `rawPick`. -/
theorem c2_answer_matches_option_amended_witness :
    ∃ opt ∈ qPick.options, lowerL qPick.answer = lowerL opt :=
  c2_answer_matches_option_amended rawPick (cs ("ollama")) [qPick] rfl
    qPick (by decide)

set_option maxRecDepth 8000 in
/-- Claim C9 counterexample: the parser accepts a fenced two-question
array as `[qAlpha, qBeta]`, but re-running it on the clean (unfenced) JSON
serialization of that very output returns only `[qAlpha]` — extraction
prefers the first balanced `{...}` object, which is the first question
object inside the serialized array. -/
theorem c9_idempotence_counterexample :
    parseModelQuestions rawTwoFenced (cs ("ollama")) = .ok [qAlpha, qBeta] ∧
    parseModelQuestions (serializeQuestions [qAlpha, qBeta])
        (cs ("ollama")) = .ok [qAlpha] ∧
    ([qAlpha] : List Question) ≠ [qAlpha, qBeta] := by
  refine ⟨rfl, rfl, by decide⟩

set_option maxRecDepth 8000 in
/-- Claim C9 (amended): idempotence holds per item — re-parsing the decoded
object form of any accepted question whose options are label-clean-stable
and non-blank reproduces that question exactly — and on raw text for a
single-question output (concrete instance below); for multi-question
outputs re-parsing returns only the first question. -/
theorem c9_idempotence_amended :
    (∀ (raw provider : Str) (qs : List Question) (q : Question),
      parseModelQuestions raw provider = .ok qs → q ∈ qs →
      (∀ o ∈ q.options, cleanOption o = o ∧ o ≠ []) →
      parseItem (questionToJ q) 1 = .ok q) ∧
    parseModelQuestions (serializeQuestions [qAlpha]) (cs ("ollama")) =
      .ok [qAlpha] := by
  constructor
  · intro raw provider qs q hparse hq hclean
    obtain ⟨hid, hq1, hq2, hopts, hans, htop, htopne, hdiff, hdiffne, hexp,
      opt, hoptmem, hci⟩ := parseModelQuestions_wf hparse q hq
    have hgQ : objGet (questionToJ q) (cs ("question")) =
        some (.jstr q.question) := rfl
    have hgO : objGet (questionToJ q) (cs ("options")) =
        some (.jarr (q.options.map .jstr)) := rfl
    have hgA : objGet (questionToJ q) (cs ("answer")) =
        some (.jstr q.answer) := rfl
    have hgT : objGet (questionToJ q) (cs ("topic")) =
        some (.jstr q.topic) := rfl
    have hgD : objGet (questionToJ q) (cs ("difficulty")) =
        some (.jstr q.difficulty) := rfl
    have hgE : objGet (questionToJ q) (cs ("explanation")) =
        some (.jstr q.explanation) := rfl
    have hgI : objGet (questionToJ q) (cs ("id")) = some (.jstr q.id) := rfl
    have hqIE : q.question.isEmpty = false := by
      cases hqq : q.question with
      | nil => exact absurd hqq hq2
      | cons a b => rfl
    have hidIE : q.id.isEmpty = false := by
      cases hii : q.id with
      | nil => exact absurd hii hid
      | cons a b => rfl
    have htopIE : q.topic.isEmpty = false := by
      cases htt : q.topic with
      | nil => exact absurd htt htopne
      | cons a b => rfl
    have hdiffIE : q.difficulty.isEmpty = false := by
      cases hdd : q.difficulty with
      | nil => exact absurd hdd hdiffne
      | cons a b => rfl
    have hansne : q.answer ≠ [] := by
      intro hnil
      have : lowerL opt = [] := by rw [← hci, hnil]; rfl
      exact (hclean opt hoptmem).2 (List.map_eq_nil_iff.mp this)
    have hansIE : q.answer.isEmpty = false := by
      cases haa : q.answer with
      | nil => exact absurd haa hansne
      | cons a b => rfl
    have hfQ : fieldOrDefault (questionToJ q) (cs ("question")) [] =
        .ok q.question := by
      unfold fieldOrDefault
      rw [hgQ]
      simp [jTruthy, hqIE]
    have hfT : fieldOrDefault (questionToJ q) (cs ("topic"))
        (cs ("General")) = .ok q.topic := by
      unfold fieldOrDefault
      rw [hgT]
      simp [jTruthy, htopIE]
    have hfD : fieldOrDefault (questionToJ q) (cs ("difficulty"))
        (cs ("medium")) = .ok q.difficulty := by
      unfold fieldOrDefault
      rw [hgD]
      simp [jTruthy, hdiffIE]
    have hfE : fieldOrDefault (questionToJ q) (cs ("explanation")) [] =
        .ok q.explanation := by
      unfold fieldOrDefault
      rw [hgE]
      by_cases he : q.explanation.isEmpty
      · have : q.explanation = [] := by
          cases hee : q.explanation with
          | nil => rfl
          | cons a b => rw [hee] at he; cases he
        simp [jTruthy, he, this]
      · simp [jTruthy, he]
    have hfI : strOrDefault (questionToJ q) (cs ("id"))
        (cs ("Q") ++ natStr 1) = q.id := by
      unfold strOrDefault
      rw [hgI]
      simp [jTruthy, hidIE, pyStr]
    have hall : (q.options.map JValue.jstr).all isJStr = true := by
      simp [List.all_eq_true, isJStr]
    have hfO : formatOptions (objGet (questionToJ q) (cs ("options"))) =
        .ok q.options := by
      rw [hgO]
      unfold formatOptions
      dsimp only
      rw [if_pos hall]
      congr 1
      rw [List.map_map]
      conv_rhs => rw [← List.map_id q.options]
      refine List.map_congr_left ?_
      intro o ho
      simpa using (hclean o ho).1
    have hAR : stripL (pyStr ((objGet (questionToJ q)
        (cs ("answer"))).getD (.jstr []))) = q.answer := by
      rw [hgA]
      exact hans
    have hfind : ∃ i, ciFindIdx (lowerL (stripL q.answer)) q.options =
        some i := by
      refine ciFindIdx_isSome_of_mem q.options _ opt hoptmem ?_
      rw [hopts opt hoptmem, hans]
      exact hci.symm
    obtain ⟨i, hi⟩ := hfind
    have hrec : reconcileAnswer q.answer q.options = .ok q.answer := by
      unfold reconcileAnswer
      dsimp only
      rw [hi]
    unfold parseItem
    dsimp only
    rw [hfQ]
    dsimp only
    rw [hfO]
    dsimp only
    rw [hAR]
    rw [if_neg (by rw [hansIE]; exact Bool.false_ne_true)]
    rw [hrec]
    dsimp only
    rw [hfT]
    dsimp only
    rw [hfD]
    dsimp only
    rw [hfE]
    dsimp only
    rw [hfI, hq1, hexp]
    rw [if_neg (by rw [hqIE]; exact Bool.false_ne_true)]
    rw [htop]
    rw [if_neg (by rw [htopIE]; exact Bool.false_ne_true)]
    rw [hdiff]
    rw [if_neg (by rw [hdiffIE]; exact Bool.false_ne_true)]
  · rfl

set_option maxRecDepth 8000 in
/-- Witness for claim C9 (amended): the item-level idempotence applied at
`qAlpha`, accepted from the concrete fenced input. -/
theorem c9_idempotence_amended_witness :
    parseItem (questionToJ qAlpha) 1 = .ok qAlpha :=
  c9_idempotence_amended.1 rawTwoFenced (cs ("ollama")) [qAlpha, qBeta]
    qAlpha rfl (by decide) (by decide)

/-- Claim C4: on any answer and any options whose texts are non-blank (the
specification's own contract for options), the source's reconciliation —
with its extra skip-guards on the label-stripping retry — implements
exactly the specification's ordered four-rule fallback; and the spec's own
example: answer `"C"` against `["10","20","30","40"]` stores `"30"`. -/
theorem c4_reconciliation_order :
    (∀ (ans : Str) (options : List Str),
      (∀ o ∈ options, stripL o ≠ []) →
      reconcileAnswer ans options = specReconcile ans options) ∧
    reconcileAnswer (cs ("C")) [cs ("10"), cs ("20"), cs ("30"), cs ("40")] =
      .ok (cs ("30")) := by
  constructor
  · intro ans options hopts
    unfold reconcileAnswer specReconcile
    dsimp only
    cases h1 : ciFindIdx (lowerL (stripL ans)) options with
    | some i => rfl
    | none =>
      dsimp only
      by_cases hg : (!(cleanText ans).isEmpty) = true ∧
          lowerL (cleanText ans) ≠ lowerL (stripL ans)
      · rw [if_pos hg]
        cases h2 : ciFindIdx (lowerL (stripL (cleanText ans))) options with
        | some i => rfl
        | none =>
          dsimp only
          by_cases hl : letterMatch ans = true
          · by_cases hi : letterIdx ans < options.length
            · simp [hl, hi]
            · simp [hl, hi]
          · simp [hl]
      · rw [if_neg hg]
        dsimp only
        have h2 : ciFindIdx (lowerL (stripL (cleanText ans))) options =
            none := by
          by_cases hce : (cleanText ans).isEmpty = true
          · have hnil : cleanText ans = [] := by
              cases hcc : cleanText ans with
              | nil => rfl
              | cons a b => rw [hcc] at hce; cases hce
            rw [hnil]
            cases hci : ciFindIdx (lowerL (stripL [])) options with
            | none => rfl
            | some i =>
              exfalso
              obtain ⟨hlt, heq⟩ := ciFindIdx_some_spec options _ i hci
              have hstripnil : stripL (options.getD i []) = [] := by
                have heq' : lowerL (stripL (options.getD i [])) = [] := heq
                exact List.map_eq_nil_iff.mp heq'
              exact hopts _ (getD_mem_of_lt hlt) hstripnil
          · have hb : lowerL (cleanText ans) = lowerL (stripL ans) := by
              by_contra hb
              exact hg ⟨by simpa using hce, hb⟩
            rw [stripL_cleanText, hb, h1]
        rw [h2]
        dsimp only
        by_cases hl : letterMatch ans = true
        · by_cases hi : letterIdx ans < options.length
          · simp [hl, hi]
          · simp [hl, hi]
        · simp [hl]
  · rfl

/-- Witness for claim C4, applying the equivalence at the spec's own
letter-fallback example. -/
theorem c4_reconciliation_order_witness :
    reconcileAnswer (cs ("C")) [cs ("10"), cs ("20"), cs ("30"), cs ("40")] =
      specReconcile (cs ("C")) [cs ("10"), cs ("20"), cs ("30"), cs ("40")] :=
  c4_reconciliation_order.1 (cs ("C"))
    [cs ("10"), cs ("20"), cs ("30"), cs ("40")] (by decide)

set_option maxRecDepth 8000 in
/-- Claim C5: extraction order — a fenced block wins when present;
otherwise the first balanced object wins even when an array occurs earlier
in the text; a balanced array is only a fallback, and then the whole text;
concretely: the spec's preamble example, an array-appears-first example, a
string-awareness example (braces inside string literals and after escaped
quotes do not count toward balance), and a fence-beats-object example. -/
theorem c5_extraction_order :
    (∀ text g : Str, fenceExtract text = some g →
      extractCandidate text = stripL g) ∧
    (∀ text o : Str, fenceExtract text = none →
      balancedSlice text '\x7b' '\x7d' = some o →
      extractCandidate text = o) ∧
    (∀ text a : Str, fenceExtract text = none →
      balancedSlice text '\x7b' '\x7d' = none →
      balancedSlice text '[' ']' = some a →
      extractCandidate text = a) ∧
    (∀ text : Str, fenceExtract text = none →
      balancedSlice text '\x7b' '\x7d' = none →
      balancedSlice text '[' ']' = none →
      extractCandidate text = text) ∧
    extractCandidate
        (cs ("Some preamble \x7b\"options\":[\"x\",\"y\",\"z\",\"w\"],\"question\":\"Q?\",\"answer\":\"x\"\x7d trailing")) =
      cs ("\x7b\"options\":[\"x\",\"y\",\"z\",\"w\"],\"question\":\"Q?\",\"answer\":\"x\"\x7d") ∧
    extractCandidate (cs ("xs [1, 2] ys \x7b\"a\": 1\x7d zs")) =
      cs ("\x7b\"a\": 1\x7d") ∧
    extractCandidate (cs ("note \x7b\"a\": \"\x7d\", \"b\": \"x\\\"\x7d\"\x7d end")) =
      cs ("\x7b\"a\": \"\x7d\", \"b\": \"x\\\"\x7d\"\x7d") ∧
    extractCandidate (cs ("pre ```json\n[1, 2]``` \x7b\"a\": 1\x7d post")) =
      cs ("[1, 2]") := by
  refine ⟨?_, ?_, ?_, ?_, rfl, rfl, rfl, rfl⟩
  · intro text g h
    unfold extractCandidate
    rw [h]
  · intro text o hf hobj
    unfold extractCandidate
    rw [hf]
    dsimp only
    rw [hobj]
  · intro text a hf hobj harr
    unfold extractCandidate
    rw [hf]
    dsimp only
    rw [hobj]
    dsimp only
    rw [harr]
  · intro text hf hobj harr
    unfold extractCandidate
    rw [hf]
    dsimp only
    rw [hobj]
    dsimp only
    rw [harr]

set_option maxRecDepth 8000 in
/-- Witness for claim C5: the object-preference rule applied at the spec's
own preamble example, both side conditions discharged by evaluation. -/
theorem c5_extraction_order_witness :
    extractCandidate (cs ("xs [1, 2] ys \x7b\"a\": 1\x7d zs")) =
      cs ("\x7b\"a\": 1\x7d") :=
  c5_extraction_order.2.1 (cs ("xs [1, 2] ys \x7b\"a\": 1\x7d zs"))
    (cs ("\x7b\"a\": 1\x7d")) rfl rfl

/-- Claim C6 counterexample: with a non-empty 3-entry theme pool supplied
(`theme_index = 0`) but the RAG document store not initialized — reachable
when the Chroma/Haystack modules fail to import while the store's SQLite
file is still readable — a parse failure on attempt 0 retries with the
*same* theme `t1`, not `theme_pool[(0 + 0 + 1) mod 3] = t2` as the claim
requires. -/
theorem c6_retry_rotation_counterexample :
    ollamaAttemptTrace (fun _ => true) 2 (some (cs ("t1")))
        [cs ("t1"), cs ("t2"), cs ("t3")] (some 0) false
        (fun n => cs ("nonce") ++ natStr n) =
      [(0, ⟨some (cs ("t1")), none⟩),
       (1, ⟨some (cs ("t1")), some (cs ("nonce") ++ natStr 1)⟩),
       (2, ⟨some (cs ("t1")), some (cs ("nonce") ++ natStr 2)⟩)] ∧
    [cs ("t1"), cs ("t2"), cs ("t3")].getD ((0 + (0 + 1)) % 3) [] =
      cs ("t2") ∧
    cs ("t1") ≠ cs ("t2") := by
  refine ⟨rfl, rfl, by decide⟩

/-- Every attempt reached by consecutive failures appears in the retry
trace with its computed variables (helper for claim C6). -/
theorem traceGo_mem {fail : Nat → Bool} {vars : Nat → GenAttempt} :
    ∀ (k attempt remaining : Nat), k ≤ remaining →
      (∀ j, j < k → fail (attempt + j) = true) →
      (attempt + k, vars (attempt + k)) ∈
        traceGo fail vars attempt remaining := by
  intro k
  induction k with
  | zero =>
    intro attempt remaining _ _
    rw [Nat.add_zero]
    unfold traceGo
    exact List.mem_cons_self _ _
  | succ k ih =>
    intro attempt remaining hk hfail
    obtain ⟨rem, rfl⟩ : ∃ rem, remaining = rem + 1 :=
      ⟨remaining - 1, by omega⟩
    have h0 : fail attempt = true := by
      have := hfail 0 (Nat.succ_pos k)
      rwa [Nat.add_zero] at this
    unfold traceGo
    refine List.mem_cons_of_mem _ ?_
    rw [h0]
    dsimp only [if_true]
    have hfail' : ∀ j, j < k → fail (attempt + 1 + j) = true := by
      intro j hj
      have := hfail (j + 1) (by omega)
      have hsh : attempt + 1 + j = attempt + (j + 1) := by omega
      rw [hsh]
      exact this
    have := ih (attempt + 1) rem (by omega) hfail'
    have hsh : attempt + 1 + k = attempt + (k + 1) := by omega
    rwa [hsh] at this

/-- One unrolling of the retry trace under a failed attempt (helper for
claim C6). -/
theorem traceGo_cons {fail : Nat → Bool} {vars : Nat → GenAttempt}
    (attempt rem : Nat) (h : fail attempt = true) :
    traceGo fail vars attempt (rem + 1) =
      (attempt, vars attempt) :: traceGo fail vars (attempt + 1) rem := by
  rw [traceGo.eq_def]
  dsimp only
  rw [h]
  rfl

/-- The head of the retry trace (helper for claim C6). -/
theorem traceGo_take_one {fail : Nat → Bool} {vars : Nat → GenAttempt}
    (attempt remaining : Nat) :
    (traceGo fail vars attempt remaining).take 1 =
      [(attempt, vars attempt)] := by
  unfold traceGo
  rfl

/-- Claim C6 (amended with the store condition): when the RAG document
store is initialized, a failed attempt `n` with `n + 1 ≤ max_retries`
retries as attempt `n + 1` using `theme_pool[(theme_index + n + 1) mod p]`
and the freshly drawn nonce of that attempt; with a 3-entry pool, two
consecutive failures walk the pool in order. -/
theorem c6_retry_rotation_amended :
    (∀ (themes : List Str) (ti : Nat) (baseTheme : Option Str)
        (nonces : Nat → Str) (fail : Nat → Bool) (maxR n : Nat),
      themes ≠ [] → (∀ t ∈ themes, t ≠ []) →
      (∀ k, k ≤ n → fail k = true) → n + 1 ≤ maxR →
      (n + 1, ⟨some (themes.getD ((ti + (n + 1)) % themes.length) []),
          some (nonces (n + 1))⟩) ∈
        ollamaAttemptTrace fail maxR baseTheme themes (some ti) true
          nonces) ∧
    ∀ (t1 t2 t3 : Str) (nonces : Nat → Str) (fail : Nat → Bool)
        (maxR : Nat),
      t1 ≠ [] → t2 ≠ [] → t3 ≠ [] →
      fail 0 = true → fail 1 = true → 2 ≤ maxR →
      (ollamaAttemptTrace fail maxR (some t1) [t1, t2, t3] (some 0) true
          nonces).take 3 =
        [(0, ⟨some t1, none⟩), (1, ⟨some t2, some (nonces 1)⟩),
         (2, ⟨some t3, some (nonces 2)⟩)] := by
  constructor
  · intro themes ti baseTheme nonces fail maxR n hne hall hfailk hle
    have hlen : 0 < themes.length := List.length_pos.mpr hne
    have hvars : attemptVars baseTheme themes (some ti) true nonces (n + 1) =
        ⟨some (themes.getD ((ti + (n + 1)) % themes.length) []),
          some (nonces (n + 1))⟩ := by
      have hidx : (ti + (n + 1)) % themes.length < themes.length :=
        Nat.mod_lt _ hlen
      have hmem : themes.getD ((ti + (n + 1)) % themes.length) [] ∈ themes :=
        getD_mem_of_lt hidx
      have htne : themes.getD ((ti + (n + 1)) % themes.length) [] ≠ [] :=
        hall _ hmem
      have hie : (themes.getD ((ti + (n + 1)) % themes.length) []).isEmpty =
          false := by
        cases hh : themes.getD ((ti + (n + 1)) % themes.length) [] with
        | nil => exact absurd hh htne
        | cons a b => rfl
      have hte : themes.isEmpty = false := by
        cases themes with
        | nil => exact absurd rfl hne
        | cons a b => rfl
      simp only [attemptVars, retryTheme, hte, hie, Bool.not_false,
        Bool.true_and, Bool.and_true, if_true, Nat.succ_ne_zero,
        beq_iff_eq, if_false, if_neg (Nat.succ_ne_zero n)]
      simp
    have hmem := @traceGo_mem fail
      (attemptVars baseTheme themes (some ti) true nonces) (n + 1) 0 maxR hle
      (fun j hj => by simpa using hfailk j (by omega))
    rw [Nat.zero_add] at hmem
    rw [hvars] at hmem
    exact hmem
  · intro t1 t2 t3 nonces fail maxR h1 h2 h3 hf0 hf1 hm
    obtain ⟨m, rfl⟩ : ∃ m, maxR = m + 1 + 1 := ⟨maxR - 2, by omega⟩
    have he2 : t2.isEmpty = false := by
      cases hh : t2 with
      | nil => exact absurd hh h2
      | cons a b => rfl
    have he3 : t3.isEmpty = false := by
      cases hh : t3 with
      | nil => exact absurd hh h3
      | cons a b => rfl
    have hv0 : attemptVars (some t1) [t1, t2, t3] (some 0) true nonces 0 =
        ⟨some t1, none⟩ := rfl
    have hv1 : attemptVars (some t1) [t1, t2, t3] (some 0) true nonces 1 =
        ⟨some t2, some (nonces 1)⟩ := by
      simp [attemptVars, retryTheme, he2]
    have hv2 : attemptVars (some t1) [t1, t2, t3] (some 0) true nonces 2 =
        ⟨some t3, some (nonces 2)⟩ := by
      simp [attemptVars, retryTheme, he3]
    unfold ollamaAttemptTrace
    rw [traceGo_cons 0 (m + 1) hf0, traceGo_cons 1 m hf1]
    rw [show (3 : Nat) = 1 + 1 + 1 from rfl]
    rw [List.take_succ_cons, List.take_succ_cons, traceGo_take_one]
    rw [hv0, hv1, hv2]

/-- Witness for claim C6 (amended): concrete pool `[ta, tb, tc]`, failures
on attempts 0 and 1, store initialized — the first three attempts use the
three themes in pool order, applying the amended theorem at concrete
inputs. -/
theorem c6_retry_rotation_amended_witness :
    (ollamaAttemptTrace (fun a => a < 2) 2 (some (cs ("ta")))
        [cs ("ta"), cs ("tb"), cs ("tc")] (some 0) true
        (fun n => cs ("n") ++ natStr n)).take 3 =
      [(0, ⟨some (cs ("ta")), none⟩),
       (1, ⟨some (cs ("tb")), some (cs ("n") ++ natStr 1)⟩),
       (2, ⟨some (cs ("tc")), some (cs ("n") ++ natStr 2)⟩)] :=
  c6_retry_rotation_amended.2 (cs ("ta")) (cs ("tb")) (cs ("tc"))
    (fun n => cs ("n") ++ natStr n) (fun a => a < 2) 2
    (by decide) (by decide) (by decide) (by decide) (by decide) (by omega)

/-- Witness for claim C7: two failing attempts then a success, with the
default delay — sleeps `1*2^0 = 1` and `1*2^1 = 2` seconds. -/
theorem c7_transport_retry_backoff_witness :
    runOllamaTransport
      (fun a => if a < 2 then .error (cs ("Ollama HTTP 500")) else
        .ok (cs ("resp")))
      2 defaultRetryDelay =
      (.ok (cs ("resp")), [1, 2]) := by
  have := c7_transport_retry_backoff.1 Str
    (fun a => if a < 2 then .error (cs ("Ollama HTTP 500")) else
      .ok (cs ("resp")))
    2 defaultRetryDelay 2 (cs ("resp")) (by omega)
    (fun a ha => ⟨cs ("Ollama HTTP 500"), by simp [ha]⟩)
    (by norm_num)
  rw [this]
  refine Prod.ext rfl ?_
  norm_num [effDelay, defaultRetryDelay, List.range_succ]

end QuizVerif
